import Mathlib

/-!
# Verification of the constrained MCX synthesis engine

The repository's notebook (`src/tutorials/mcx/mcx.ipynb`) drives a remote
quantum-circuit synthesis engine: it builds an MCX (multi-controlled X) model,
sets width/objective constraints and a basis gate set, and synthesizes a
circuit.  The engine itself is not part of the repository's sources, so the
definitions below are modelled from the specification (each such definition
says so in its doc comment).

The development has four parts:
1. a gate language and its action on computational-basis states (the
   X/CX/CCX fragment is a permutation of basis states, so state-vector
   simulation of the decomposition strategies reduces to Boolean evaluation);
2. the three decomposition strategies (V-chain, no-ancilla recursive,
   logarithmic-depth tree) and their compute/uncompute structure;
3. a quantum (amplitude-level) semantics over the ring ℚ[ζ₈] used to check
   that the Toffoli-to-{CX, single-qubit} rewrite of the gate algebra
   preserves the unitary exactly;
4. the planner / assembler pipeline (candidate enumeration, cost-minimal
   selection, depth and gate-count metrics) and the claims about it.
-/

set_option maxHeartbeats 4000000

namespace MCXEngine

/-- Modelled from the spec: the gate alphabet of the Gate Algebra.  A tagged
variant with a kind, control qubit references and one target reference
(`X`, `CX`, `CCX` are the X-family; `H`, `T`, `Tdg` are the single-qubit
gates appearing in basis rewrites). Qubit references are opaque `Nat`
indices into a flat register space. -/
inductive Gate where
  | X (t : Nat)
  | H (t : Nat)
  | T (t : Nat)
  | Tdg (t : Nat)
  | CX (c t : Nat)
  | CCX (c1 c2 t : Nat)
  deriving DecidableEq, Repr

/-- The qubit references a gate touches (controls and target). -/
def Gate.qubits : Gate → List Nat
  | .X t | .H t | .T t | .Tdg t => [t]
  | .CX c t => [c, t]
  | .CCX c1 c2 t => [c1, c2, t]

/-- The one qubit a gate writes (its target; controls are only read). -/
def Gate.tgt : Gate → Nat
  | .X t | .H t | .T t | .Tdg t => t
  | .CX _ t => t
  | .CCX _ _ t => t

/-- Data-model invariant from the spec: the control and target qubit sets of
one gate are disjoint. -/
def Gate.wf : Gate → Prop
  | .X _ | .H _ | .T _ | .Tdg _ => True
  | .CX c t => c ≠ t
  | .CCX c1 c2 t => c1 ≠ t ∧ c2 ≠ t

/-- Action of a gate on a computational-basis state (a Boolean assignment to
qubit indices).  `X`, `CX`, `CCX` permute basis states; `T`/`Tdg` act on a
basis state by a phase only, hence fix it; `H` is outside the
basis-permutation fragment and is given the trivial action here — it never
occurs in a strategy's emitted sequence (the amplitude-level semantics in
part 3 treats it properly). -/
def applyGate : Gate → (Nat → Bool) → (Nat → Bool)
  | .X t, s => Function.update s t (! s t)
  | .H _, s => s
  | .T _, s => s
  | .Tdg _, s => s
  | .CX c t, s => Function.update s t (xor (s t) (s c))
  | .CCX c1 c2 t, s => Function.update s t (xor (s t) (s c1 && s c2))

/-- Action of an ordered gate sequence on a basis state. -/
def applyCircuit (gs : List Gate) (s : Nat → Bool) : Nat → Bool :=
  gs.foldl (fun st g => applyGate g st) s

theorem applyCircuit_nil (s : Nat → Bool) : applyCircuit [] s = s := rfl

theorem applyCircuit_cons (g : Gate) (gs : List Gate) (s : Nat → Bool) :
    applyCircuit (g :: gs) s = applyCircuit gs (applyGate g s) := rfl

theorem applyCircuit_append (xs ys : List Gate) (s : Nat → Bool) :
    applyCircuit (xs ++ ys) s = applyCircuit ys (applyCircuit xs s) :=
  List.foldl_append _ _ _ _

/-- A gate does not change qubits it does not touch. -/
theorem applyGate_not_mem (g : Gate) (s : Nat → Bool) (q : Nat)
    (hq : q ∉ g.qubits) : applyGate g s q = s q := by
  cases g with
  | X t =>
    have ht : q ≠ t := by simpa [Gate.qubits] using hq
    simp [applyGate, Function.update_noteq ht]
  | H t => rfl
  | T t => rfl
  | Tdg t => rfl
  | CX c t =>
    have ht : q ≠ t := by simp [Gate.qubits] at hq; exact hq.2
    simp [applyGate, Function.update_noteq ht]
  | CCX c1 c2 t =>
    have ht : q ≠ t := by simp [Gate.qubits] at hq; exact hq.2.2
    simp [applyGate, Function.update_noteq ht]

/-- A circuit does not change qubits none of its gates touch. -/
theorem applyCircuit_not_mem (gs : List Gate) (s : Nat → Bool) (q : Nat)
    (h : ∀ g ∈ gs, q ∉ g.qubits) : applyCircuit gs s q = s q := by
  induction gs generalizing s with
  | nil => rfl
  | cons g gs ih =>
    rw [applyCircuit_cons, ih _ (fun g' hg' => h g' (List.mem_cons_of_mem _ hg')),
      applyGate_not_mem g s q (h g (List.mem_cons_self _ _))]

/-- A gate's action commutes with overwriting a qubit it does not touch. -/
theorem applyGate_update (g : Gate) (s : Nat → Bool) (t : Nat) (v : Bool)
    (ht : t ∉ g.qubits) :
    applyGate g (Function.update s t v) = Function.update (applyGate g s) t v := by
  cases g with
  | X u =>
    have hu : u ≠ t := by simp [Gate.qubits] at ht; exact fun h => ht h.symm
    simp [applyGate, Function.update_noteq hu]
    rw [Function.update_comm hu]
  | H u => rfl
  | T u => rfl
  | Tdg u => rfl
  | CX c u =>
    have hc : c ≠ t := by simp [Gate.qubits] at ht; exact fun h => ht.1 h.symm
    have hu : u ≠ t := by simp [Gate.qubits] at ht; exact fun h => ht.2 h.symm
    simp [applyGate, Function.update_noteq hu, Function.update_noteq hc]
    rw [Function.update_comm hu]
  | CCX c1 c2 u =>
    have hc1 : c1 ≠ t := by simp [Gate.qubits] at ht; exact fun h => ht.1 h.symm
    have hc2 : c2 ≠ t := by simp [Gate.qubits] at ht; exact fun h => ht.2.1 h.symm
    have hu : u ≠ t := by simp [Gate.qubits] at ht; exact fun h => ht.2.2 h.symm
    simp [applyGate, Function.update_noteq hu, Function.update_noteq hc1,
      Function.update_noteq hc2]
    rw [Function.update_comm hu]

/-- A circuit's action commutes with overwriting a qubit none of its gates
touch. -/
theorem applyCircuit_update (gs : List Gate) (s : Nat → Bool) (t : Nat) (v : Bool)
    (ht : ∀ g ∈ gs, t ∉ g.qubits) :
    applyCircuit gs (Function.update s t v) = Function.update (applyCircuit gs s) t v := by
  induction gs generalizing s with
  | nil => rfl
  | cons g gs ih =>
    rw [applyCircuit_cons, applyGate_update g s t v (ht g (List.mem_cons_self _ _)),
      ih _ (fun g' hg' => ht g' (List.mem_cons_of_mem _ hg')), applyCircuit_cons]

/-- Every well-formed gate of the permutation fragment is self-inverse on
basis states. -/
theorem applyGate_applyGate (g : Gate) (hg : g.wf) (s : Nat → Bool) :
    applyGate g (applyGate g s) = s := by
  cases g with
  | X t =>
    simp [applyGate]
  | H t => rfl
  | T t => rfl
  | Tdg t => rfl
  | CX c t =>
    have hc : c ≠ t := hg
    simp [applyGate, Function.update_noteq hc, Bool.xor_assoc]
  | CCX c1 c2 t =>
    have hc1 : c1 ≠ t := hg.1
    have hc2 : c2 ≠ t := hg.2
    simp [applyGate, Function.update_noteq hc1,
      Function.update_noteq hc2, Bool.xor_assoc]

/-- Running a well-formed gate sequence and then its mirror image restores
the state: the uncompute half of a compute/uncompute pair is exact. -/
theorem applyCircuit_reverse (gs : List Gate) (hwf : ∀ g ∈ gs, g.wf) (s : Nat → Bool) :
    applyCircuit gs.reverse (applyCircuit gs s) = s := by
  induction gs generalizing s with
  | nil => rfl
  | cons g gs ih =>
    rw [List.reverse_cons, applyCircuit_cons, applyCircuit_append, applyCircuit_cons,
      applyCircuit_nil, ih (fun g' hg' => hwf g' (List.mem_cons_of_mem _ hg')),
      applyGate_applyGate g (hwf g (List.mem_cons_self _ _))]

/-- A gate only changes its target qubit. -/
theorem applyGate_ne_tgt (g : Gate) (s : Nat → Bool) (q : Nat) (hq : q ≠ g.tgt) :
    applyGate g s q = s q := by
  cases g with
  | X t => simp only [Gate.tgt] at hq; simp [applyGate, Function.update_noteq hq]
  | H t => rfl
  | T t => rfl
  | Tdg t => rfl
  | CX c t => simp only [Gate.tgt] at hq; simp [applyGate, Function.update_noteq hq]
  | CCX c1 c2 t => simp only [Gate.tgt] at hq; simp [applyGate, Function.update_noteq hq]

/-- A circuit only changes the targets of its gates. -/
theorem applyCircuit_ne_tgt (gs : List Gate) (s : Nat → Bool) (q : Nat)
    (h : ∀ g ∈ gs, q ≠ g.tgt) : applyCircuit gs s q = s q := by
  induction gs generalizing s with
  | nil => rfl
  | cons g gs ih =>
    rw [applyCircuit_cons, ih _ (fun g2 hg2 => h g2 (List.mem_cons_of_mem _ hg2)),
      applyGate_ne_tgt g s q (h g (List.mem_cons_self _ _))]

/-- The compute / copy-out / uncompute combinator shared by the
ancilla-assisted strategies: running `gs`, a CX from `root` onto `t`, then
the mirror of `gs`, flips `t` by the value `gs` leaves on `root` and
restores every other qubit (in particular every ancilla). -/
theorem compute_uncompute (gs : List Gate) (root t : Nat) (s : Nat → Bool)
    (hwf : ∀ g ∈ gs, g.wf) (ht : ∀ g ∈ gs, t ∉ g.qubits) :
    applyCircuit (gs ++ Gate.CX root t :: gs.reverse) s
      = Function.update s t (xor (s t) (applyCircuit gs s root)) := by
  rw [applyCircuit_append, applyCircuit_cons]
  have hut : applyCircuit gs s t = s t := applyCircuit_not_mem gs s t ht
  have hstep : applyGate (Gate.CX root t) (applyCircuit gs s)
      = Function.update (applyCircuit gs s) t (xor (s t) (applyCircuit gs s root)) := by
    simp [applyGate, hut]
  rw [hstep,
    applyCircuit_update gs.reverse _ t _ (fun g hg => ht g (List.mem_reverse.mp hg)),
    applyCircuit_reverse gs hwf]

/-- The generalized combinator: a compute section `gs` that avoids qubit
`t`, a middle section `M` whose gates all write `t` only, and the mirror of
`gs`, together restore every qubit other than `t`. -/
theorem compute_mid_uncompute (gs M : List Gate) (t : Nat) (s : Nat → Bool)
    (hwf : ∀ g ∈ gs, g.wf) (ht : ∀ g ∈ gs, t ∉ g.qubits)
    (hM : ∀ g ∈ M, g.tgt = t) (q : Nat) (hq : q ≠ t) :
    applyCircuit (gs ++ (M ++ gs.reverse)) s q = s q := by
  rw [applyCircuit_append, applyCircuit_append]
  have hvu : ∀ r, r ≠ t →
      applyCircuit M (applyCircuit gs s) r = applyCircuit gs s r := fun r hr =>
    applyCircuit_ne_tgt M _ r (fun g hg => by rw [hM g hg]; exact hr)
  have hv : applyCircuit M (applyCircuit gs s)
      = Function.update (applyCircuit gs s) t (applyCircuit M (applyCircuit gs s) t) := by
    funext r
    by_cases hr : r = t
    · subst hr; rw [Function.update_same]
    · rw [Function.update_noteq hr, hvu r hr]
  rw [hv, applyCircuit_update gs.reverse _ t _ (fun g hg => ht g (List.mem_reverse.mp hg)),
    applyCircuit_reverse gs hwf, Function.update_noteq hq]

/-- Modelled from the spec: the V-chain compute cascade.  `chainSeg prev cs as`
emits, for each remaining control `c` with a fresh ancilla `a`, a Toffoli
`CCX prev c a` AND-reducing the running conjunction held on `prev` with `c`
into `a`; it returns the emitted gates and the qubit holding the final
conjunction, or `none` when the ancillas run out (the strategy's
`len(ancillas) ≥ k − 1` validity condition). -/
def chainSeg : Nat → List Nat → List Nat → Option (List Gate × Nat)
  | prev, [], _ => some ([], prev)
  | _, _ :: _, [] => none
  | prev, c :: cs, a :: as =>
    match chainSeg a cs as with
    | none => none
    | some (gs, last) => some (Gate.CCX prev c a :: gs, last)

/-- Modelled from the spec: the linear-ancilla V-chain strategy.  `k = 0`
degenerates to a plain `X`, `k = 1` to a single `CX`; otherwise a linear
chain of Toffolis cascades AND-reductions of the controls into the ancilla
chain, a single `CX` copies the final conjunction onto the target, and the
mirror image of the chain uncomputes every ancilla back to zero. -/
def vchain (controls : List Nat) (target : Nat) (ancillas : List Nat) :
    Option (List Gate) :=
  match controls, ancillas with
  | [], _ => some [Gate.X target]
  | [c], _ => some [Gate.CX c target]
  | _ :: _ :: _, [] => none
  | c0 :: c1 :: rest, a0 :: as =>
    match chainSeg a0 rest as with
    | none => none
    | some (gs, last) =>
      some ((Gate.CCX c0 c1 a0 :: gs) ++ Gate.CX last target ::
        (Gate.CCX c0 c1 a0 :: gs).reverse)

/-- Modelled from the spec: the no-ancilla recursive strategy, with the
control-list length as structural fuel (always sufficient, since each half
is strictly shorter).  It splits the control set into two halves and
composes the halves' recursive implementations; the actual engine realizes
the composition with relative-phase Toffolis, which act as the identity on
the computational-basis permutation fragment modelled here, so the model
keeps the recursion structure and the footprint (controls and target only,
zero ancillas) — the facts the claims about this strategy depend on. -/
def noAncillaAux : Nat → List Nat → Nat → List Gate
  | _, [], target => [Gate.X target]
  | _, [c], target => [Gate.CX c target]
  | _, [c1, c2], target => [Gate.CCX c1 c2 target]
  | 0, _ :: _ :: _ :: _, _ => []
  | fuel + 1, c1 :: c2 :: c3 :: rest, target =>
    noAncillaAux fuel ((c1 :: c2 :: c3 :: rest).take (((c1 :: c2 :: c3 :: rest).length + 1) / 2)) target
      ++ noAncillaAux fuel ((c1 :: c2 :: c3 :: rest).drop (((c1 :: c2 :: c3 :: rest).length + 1) / 2)) target
      ++ noAncillaAux fuel ((c1 :: c2 :: c3 :: rest).take (((c1 :: c2 :: c3 :: rest).length + 1) / 2)) target
      ++ noAncillaAux fuel ((c1 :: c2 :: c3 :: rest).drop (((c1 :: c2 :: c3 :: rest).length + 1) / 2)) target

def noAncilla (controls : List Nat) (target : Nat) : List Gate :=
  noAncillaAux controls.length controls target

/-- Modelled from the spec: one layer of the balanced binary reduction tree.
Adjacent control nodes are paired and AND-reduced by a Toffoli into a fresh
ancilla while ancillas remain; an odd leftover node — and, once the
ancillas are exhausted, all remaining nodes — pass through to the next
layer.  Returns the layer's gates, the next layer's nodes and the
unconsumed ancillas. -/
def pairUpG : List Nat → List Nat → List Gate × List Nat × List Nat
  | [], as => ([], [], as)
  | [c], as => ([], [c], as)
  | c1 :: c2 :: rest, [] => ([], c1 :: c2 :: rest, [])
  | c1 :: c2 :: rest, a :: as =>
    match pairUpG rest as with
    | (gs, ns, rem) => (Gate.CCX c1 c2 a :: gs, a :: ns, rem)

/-- Modelled from the spec: the balanced binary reduction tree, layer by
layer, pairing nodes for as long as ancillas remain; it returns the layer
gates and the final node list (a single root when the ancillas sufficed for
a complete tree).  The fuel argument bounds the number of layers (the
caller passes the node count, which always suffices). -/
def reduceTreeG : Nat → List Nat → List Nat → List Gate × List Nat
  | 0, nodes, _ => ([], nodes)
  | _ + 1, [], _ => ([], [])
  | _ + 1, [c], _ => ([], [c])
  | _ + 1, c1 :: c2 :: rest, [] => ([], c1 :: c2 :: rest)
  | fuel + 1, c1 :: c2 :: rest, a :: as =>
    match pairUpG (c1 :: c2 :: rest) (a :: as) with
    | (gs1, ns, rem) =>
      match reduceTreeG fuel ns rem with
      | (gs2, final) => (gs1 ++ gs2, final)

/-- Modelled from the spec: the logarithmic-depth ancilla strategy, valid
for `len(ancillas) ≥ ⌈k/2⌉ − 1`.  A balanced binary tree of Toffolis
reduces the controls toward a root; the remaining nodes (exactly the root
when the ancillas sufficed for a complete tree) are then applied to the
target — a single `CX` from the root, or, where the width budget cut the
tree short, the no-ancilla relative-phase composition over the remaining
nodes (the spec's "combination across recursive sub-calls"); finally the
mirror image of the tree uncomputes every ancilla. -/
def logDepth (controls : List Nat) (target : Nat) (ancillas : List Nat) :
    Option (List Gate) :=
  match controls with
  | [] => some [Gate.X target]
  | [c] => some [Gate.CX c target]
  | c1 :: c2 :: rest =>
    if ((c1 :: c2 :: rest).length + 1) / 2 ≤ ancillas.length + 1 then
      some ((reduceTreeG (c1 :: c2 :: rest).length (c1 :: c2 :: rest) ancillas).1 ++
        (noAncilla (reduceTreeG (c1 :: c2 :: rest).length (c1 :: c2 :: rest) ancillas).2 target ++
         (reduceTreeG (c1 :: c2 :: rest).length (c1 :: c2 :: rest) ancillas).1.reverse))
    else none

/-- Modelled from the spec: the closed set of decomposition strategies, in
declaration order (used for the planner's deterministic tie-break). -/
inductive Strategy where
  | vchainS
  | noAncillaS
  | logDepthS
  deriving DecidableEq, Repr

/-- Modelled from the spec: a strategy's `apply` entry point — a pure
function from (controls, target, ancillas) to a gate sequence, `none` when
the configuration violates the strategy's validity condition. -/
def runStrategy : Strategy → List Nat → Nat → List Nat → Option (List Gate)
  | .vchainS, controls, target, ancillas => vchain controls target ancillas
  | .noAncillaS, controls, target, _ => some (noAncilla controls target)
  | .logDepthS, controls, target, ancillas => logDepth controls target ancillas

theorem all_eq_of_mem_eq (l : List Nat) {f g : Nat → Bool}
    (h : ∀ x ∈ l, f x = g x) : l.all f = l.all g := by
  induction l with
  | nil => rfl
  | cons x xs ih =>
    simp only [List.all_cons, h x (List.mem_cons_self _ _),
      ih (fun y hy => h y (List.mem_cons_of_mem _ hy))]

/-- Every qubit a `chainSeg` gate touches is the seed, a control or an
ancilla. -/
theorem chainSeg_qubits (cs : List Nat) :
    ∀ (as : List Nat) (prev : Nat) (gs : List Gate) (last : Nat),
      chainSeg prev cs as = some (gs, last) →
      ∀ g ∈ gs, ∀ q ∈ g.qubits, q = prev ∨ q ∈ cs ∨ q ∈ as := by
  induction cs with
  | nil =>
    intro as prev gs last h
    simp only [chainSeg, Option.some.injEq, Prod.mk.injEq] at h
    intro g hg
    rw [← h.1] at hg
    simp at hg
  | cons c cs ih =>
    intro as prev gs last h
    cases as with
    | nil => simp [chainSeg] at h
    | cons a as2 =>
      simp only [chainSeg] at h
      cases hrec : chainSeg a cs as2 with
      | none => rw [hrec] at h; simp at h
      | some p =>
        obtain ⟨gs2, last2⟩ := p
        rw [hrec] at h
        simp only [Option.some.injEq, Prod.mk.injEq] at h
        obtain ⟨hgs, hlast⟩ := h
        intro g hg q hq
        rw [← hgs] at hg
        rcases List.mem_cons.mp hg with hg1 | hg2
        · subst hg1
          simp only [Gate.qubits, List.mem_cons, List.mem_singleton] at hq
          rcases hq with h1 | h2 | h3
          · exact Or.inl h1
          · exact Or.inr (Or.inl (h2 ▸ List.mem_cons_self _ _))
          · simp at h3
            exact Or.inr (Or.inr (h3 ▸ List.mem_cons_self _ _))
        · rcases ih as2 a gs2 last2 hrec g hg2 q hq with h1 | h2 | h3
          · exact Or.inr (Or.inr (h1 ▸ List.mem_cons_self _ _))
          · exact Or.inr (Or.inl (List.mem_cons_of_mem _ h2))
          · exact Or.inr (Or.inr (List.mem_cons_of_mem _ h3))

/-- The qubit holding the final conjunction of a `chainSeg` is the seed or
an ancilla. -/
theorem chainSeg_last (cs : List Nat) :
    ∀ (as : List Nat) (prev : Nat) (gs : List Gate) (last : Nat),
      chainSeg prev cs as = some (gs, last) → last = prev ∨ last ∈ as := by
  induction cs with
  | nil =>
    intro as prev gs last h
    simp only [chainSeg, Option.some.injEq, Prod.mk.injEq] at h
    exact Or.inl h.2.symm
  | cons c cs ih =>
    intro as prev gs last h
    cases as with
    | nil => simp [chainSeg] at h
    | cons a as2 =>
      simp only [chainSeg] at h
      cases hrec : chainSeg a cs as2 with
      | none => rw [hrec] at h; simp at h
      | some p =>
        obtain ⟨gs2, last2⟩ := p
        rw [hrec] at h
        simp only [Option.some.injEq, Prod.mk.injEq] at h
        rcases ih as2 a gs2 last2 hrec with h1 | h2
        · exact Or.inr (h.2 ▸ h1 ▸ List.mem_cons_self _ _)
        · exact Or.inr (List.mem_cons_of_mem _ (h.2 ▸ h2))

/-- Every `chainSeg` gate is well-formed (its ancilla target differs from
its two controls) when the ancillas are distinct and fresh. -/
theorem chainSeg_wf (cs : List Nat) :
    ∀ (as : List Nat) (prev : Nat) (gs : List Gate) (last : Nat),
      chainSeg prev cs as = some (gs, last) →
      prev ∉ as → (∀ c ∈ cs, c ∉ as) → as.Nodup →
      ∀ g ∈ gs, g.wf := by
  induction cs with
  | nil =>
    intro as prev gs last h _ _ _
    simp only [chainSeg, Option.some.injEq, Prod.mk.injEq] at h
    intro g hg
    rw [← h.1] at hg
    simp at hg
  | cons c cs ih =>
    intro as prev gs last h hprev hcs hnd
    cases as with
    | nil => simp [chainSeg] at h
    | cons a as2 =>
      simp only [chainSeg] at h
      cases hrec : chainSeg a cs as2 with
      | none => rw [hrec] at h; simp at h
      | some p =>
        obtain ⟨gs2, last2⟩ := p
        rw [hrec] at h
        simp only [Option.some.injEq, Prod.mk.injEq] at h
        obtain ⟨ha, hnd2⟩ := List.nodup_cons.mp hnd
        intro g hg
        rw [← h.1] at hg
        rcases List.mem_cons.mp hg with hg1 | hg2
        · subst hg1
          refine ⟨fun hpa => hprev (hpa ▸ List.mem_cons_self _ _), fun hca => ?_⟩
          exact hcs c (List.mem_cons_self _ _) (hca ▸ List.mem_cons_self _ _)
        · exact ih as2 a gs2 last2 hrec ha
            (fun x hx => fun hmem => hcs x (List.mem_cons_of_mem _ hx)
              (List.mem_cons_of_mem _ hmem)) hnd2 g hg2

/-- The value a `chainSeg` leaves on its final qubit is the conjunction of
the seed with all the remaining controls (with ancillas initialized to
zero and fresh with respect to seed and controls). -/
theorem chainSeg_value (cs : List Nat) :
    ∀ (as : List Nat) (prev : Nat) (gs : List Gate) (last : Nat) (s : Nat → Bool),
      chainSeg prev cs as = some (gs, last) →
      prev ∉ as → (∀ c ∈ cs, c ∉ as) → as.Nodup →
      (∀ a ∈ as, s a = false) →
      applyCircuit gs s last = (s prev && cs.all s) := by
  induction cs with
  | nil =>
    intro as prev gs last s h _ _ _ _
    simp only [chainSeg, Option.some.injEq, Prod.mk.injEq] at h
    rw [← h.1, ← h.2, applyCircuit_nil]
    simp
  | cons c cs ih =>
    intro as prev gs last s h hprev hcs hnd hzero
    cases as with
    | nil => simp [chainSeg] at h
    | cons a as2 =>
      simp only [chainSeg] at h
      cases hrec : chainSeg a cs as2 with
      | none => rw [hrec] at h; simp at h
      | some p =>
        obtain ⟨gs2, last2⟩ := p
        rw [hrec] at h
        simp only [Option.some.injEq, Prod.mk.injEq] at h
        obtain ⟨ha, hnd2⟩ := List.nodup_cons.mp hnd
        have hsa : s a = false := hzero a (List.mem_cons_self _ _)
        have hu1 : applyGate (Gate.CCX prev c a) s
            = Function.update s a (s prev && s c) := by
          simp [applyGate, hsa]
        rw [← h.1, ← h.2, applyCircuit_cons, hu1]
        have hca : c ≠ a := fun hcc =>
          hcs c (List.mem_cons_self _ _) (hcc ▸ List.mem_cons_self _ _)
        have hpa : prev ≠ a := fun hpp => hprev (hpp ▸ List.mem_cons_self _ _)
        have hih := ih as2 a gs2 last2 (Function.update s a (s prev && s c)) hrec ha
          (fun x hx hmem => hcs x (List.mem_cons_of_mem _ hx) (List.mem_cons_of_mem _ hmem))
          hnd2
          (fun b hb => by
            have hba : b ≠ a := fun hbb => ha (hbb ▸ hb)
            rw [Function.update_noteq hba]
            exact hzero b (List.mem_cons_of_mem _ hb))
        rw [hih, Function.update_same]
        have hall : cs.all (Function.update s a (s prev && s c)) = cs.all s := by
          apply all_eq_of_mem_eq
          intro x hx
          have hxa : x ≠ a := fun hh => hcs x (List.mem_cons_of_mem _ hx)
            (by rw [hh]; exact List.mem_cons_self _ _)
          exact Function.update_noteq hxa _ _
        rw [hall, List.all_cons, ← Bool.and_assoc]

/-- Full functional correctness of the V-chain strategy on computational
basis states: with distinct qubits and zero-initialized ancillas, the
emitted sequence flips the target exactly when every control is one and
fixes every other qubit (controls, ancillas and any unrelated qubit). -/
theorem vchain_spec (controls : List Nat) (target : Nat) (ancillas : List Nat)
    (gs : List Gate) (s : Nat → Bool)
    (h : vchain controls target ancillas = some gs)
    (hcn : controls.Nodup) (han : ancillas.Nodup)
    (hct : target ∉ controls) (hat : target ∉ ancillas)
    (hca : ∀ c ∈ controls, c ∉ ancillas)
    (hzero : ∀ a ∈ ancillas, s a = false) :
    applyCircuit gs s = Function.update s target (xor (s target) (controls.all s)) := by
  match controls, h with
  | [], h =>
    simp only [vchain, Option.some.injEq] at h
    rw [← h]
    funext q
    simp [applyCircuit, applyGate, Bool.xor_true]
  | [c], h =>
    simp only [vchain, Option.some.injEq] at h
    rw [← h]
    funext q
    simp [applyCircuit, applyGate]
  | c0 :: c1 :: rest, h =>
    cases ancillas with
    | nil => simp [vchain] at h
    | cons a0 as =>
      simp only [vchain] at h
      cases hrec : chainSeg a0 rest as with
      | none => rw [hrec] at h; simp at h
      | some p =>
        obtain ⟨gs2, last⟩ := p
        rw [hrec] at h
        simp only [Option.some.injEq] at h
        obtain ⟨ha0, hasnd⟩ := List.nodup_cons.mp han
        have hrest_as : ∀ c ∈ rest, c ∉ as := fun c hc hmem =>
          hca c (List.mem_cons_of_mem _ (List.mem_cons_of_mem _ hc))
            (List.mem_cons_of_mem _ hmem)
        have hc0a : c0 ∉ a0 :: as := hca c0 (List.mem_cons_self _ _)
        have hc1a : c1 ∉ a0 :: as := hca c1 (List.mem_cons_of_mem _ (List.mem_cons_self _ _))
        have hwf : ∀ g ∈ Gate.CCX c0 c1 a0 :: gs2, g.wf := by
          intro g hg
          rcases List.mem_cons.mp hg with hg1 | hg2
          · subst hg1
            exact ⟨fun hh => hc0a (hh ▸ List.mem_cons_self _ _),
                   fun hh => hc1a (hh ▸ List.mem_cons_self _ _)⟩
          · exact chainSeg_wf rest as a0 gs2 last hrec ha0 hrest_as hasnd g hg2
        have htq : ∀ g ∈ Gate.CCX c0 c1 a0 :: gs2, target ∉ g.qubits := by
          intro g hg hqt
          rcases List.mem_cons.mp hg with hg1 | hg2
          · subst hg1
            simp only [Gate.qubits, List.mem_cons, List.mem_singleton] at hqt
            rcases hqt with h1 | h2 | h3
            · exact hct (h1 ▸ List.mem_cons_self _ _)
            · exact hct (h2 ▸ List.mem_cons_of_mem _ (List.mem_cons_self _ _))
            · simp at h3
              exact hat (h3 ▸ List.mem_cons_self _ _)
          · rcases chainSeg_qubits rest as a0 gs2 last hrec g hg2 target hqt with h1 | h2 | h3
            · exact hat (h1 ▸ List.mem_cons_self _ _)
            · exact hct (List.mem_cons_of_mem _ (List.mem_cons_of_mem _ h2))
            · exact hat (List.mem_cons_of_mem _ h3)
        rw [← h, compute_uncompute _ last target s hwf htq]
        have hsa0 : s a0 = false := hzero a0 (List.mem_cons_self _ _)
        have hu1 : applyGate (Gate.CCX c0 c1 a0) s
            = Function.update s a0 (s c0 && s c1) := by
          simp [applyGate, hsa0]
        have hval : applyCircuit (Gate.CCX c0 c1 a0 :: gs2) s last
            = ((s c0 && s c1) && rest.all s) := by
          rw [applyCircuit_cons, hu1]
          have hih := chainSeg_value rest as a0 gs2 last
            (Function.update s a0 (s c0 && s c1)) hrec ha0 hrest_as hasnd
            (fun b hb => by
              have hba : b ≠ a0 := fun hbb => ha0 (hbb ▸ hb)
              rw [Function.update_noteq hba]
              exact hzero b (List.mem_cons_of_mem _ hb))
          rw [hih, Function.update_same]
          congr 1
          apply all_eq_of_mem_eq
          intro x hx
          have hxa : x ≠ a0 := fun hh =>
            hca x (List.mem_cons_of_mem _ (List.mem_cons_of_mem _ hx))
              (by rw [hh]; exact List.mem_cons_self _ _)
          exact Function.update_noteq hxa _ _
        rw [hval]
        simp [List.all_cons, Bool.and_assoc]

theorem noAncillaAux_qubits (fuel : Nat) :
    ∀ (controls : List Nat) (target : Nat),
      ∀ g ∈ noAncillaAux fuel controls target, ∀ q ∈ g.qubits,
        q ∈ controls ∨ q = target := by
  induction fuel with
  | zero =>
    intro controls target g hg q hq
    match controls with
    | [] =>
      simp only [noAncillaAux, List.mem_singleton] at hg
      subst hg
      simp only [Gate.qubits, List.mem_singleton] at hq
      exact Or.inr hq
    | [c] =>
      simp only [noAncillaAux, List.mem_singleton] at hg
      subst hg
      simp only [Gate.qubits, List.mem_cons, List.mem_singleton] at hq
      rcases hq with h1 | h2
      · exact Or.inl (by rw [h1]; exact List.mem_cons_self _ _)
      · simp at h2; exact Or.inr h2
    | [c1, c2] =>
      simp only [noAncillaAux, List.mem_singleton] at hg
      subst hg
      simp only [Gate.qubits, List.mem_cons, List.mem_singleton] at hq
      rcases hq with h1 | h2 | h3
      · exact Or.inl (by rw [h1]; exact List.mem_cons_self _ _)
      · exact Or.inl (by rw [h2]; exact List.mem_cons_of_mem _ (List.mem_cons_self _ _))
      · simp at h3; exact Or.inr h3
    | c1 :: c2 :: c3 :: rest =>
      simp [noAncillaAux] at hg
  | succ fuel ih =>
    intro controls target g hg q hq
    match controls with
    | [] =>
      simp only [noAncillaAux, List.mem_singleton] at hg
      subst hg
      simp only [Gate.qubits, List.mem_singleton] at hq
      exact Or.inr hq
    | [c] =>
      simp only [noAncillaAux, List.mem_singleton] at hg
      subst hg
      simp only [Gate.qubits, List.mem_cons, List.mem_singleton] at hq
      rcases hq with h1 | h2
      · exact Or.inl (by rw [h1]; exact List.mem_cons_self _ _)
      · simp at h2; exact Or.inr h2
    | [c1, c2] =>
      simp only [noAncillaAux, List.mem_singleton] at hg
      subst hg
      simp only [Gate.qubits, List.mem_cons, List.mem_singleton] at hq
      rcases hq with h1 | h2 | h3
      · exact Or.inl (by rw [h1]; exact List.mem_cons_self _ _)
      · exact Or.inl (by rw [h2]; exact List.mem_cons_of_mem _ (List.mem_cons_self _ _))
      · simp at h3; exact Or.inr h3
    | c1 :: c2 :: c3 :: rest =>
      simp only [noAncillaAux, List.mem_append] at hg
      have hsubT : ∀ x, x ∈ (c1 :: c2 :: c3 :: rest).take
          (((c1 :: c2 :: c3 :: rest).length + 1) / 2) → x ∈ c1 :: c2 :: c3 :: rest :=
        fun x hx => List.mem_of_mem_take hx
      have hsubD : ∀ x, x ∈ (c1 :: c2 :: c3 :: rest).drop
          (((c1 :: c2 :: c3 :: rest).length + 1) / 2) → x ∈ c1 :: c2 :: c3 :: rest :=
        fun x hx => List.mem_of_mem_drop hx
      rcases hg with ((hg1 | hg2) | hg3) | hg4
      · rcases ih _ target g hg1 q hq with h | h
        · exact Or.inl (hsubT q h)
        · exact Or.inr h
      · rcases ih _ target g hg2 q hq with h | h
        · exact Or.inl (hsubD q h)
        · exact Or.inr h
      · rcases ih _ target g hg3 q hq with h | h
        · exact Or.inl (hsubT q h)
        · exact Or.inr h
      · rcases ih _ target g hg4 q hq with h | h
        · exact Or.inl (hsubD q h)
        · exact Or.inr h

/-- The no-ancilla strategy touches only the controls and the target — it
borrows no ancilla qubit at all. -/
theorem noAncilla_qubits (controls : List Nat) (target : Nat) :
    ∀ g ∈ noAncilla controls target, ∀ q ∈ g.qubits, q ∈ controls ∨ q = target :=
  noAncillaAux_qubits controls.length controls target

/-- Every gate of the no-ancilla composition writes the target qubit. -/
theorem noAncillaAux_tgt (fuel : Nat) :
    ∀ (controls : List Nat) (target : Nat),
      ∀ g ∈ noAncillaAux fuel controls target, g.tgt = target := by
  induction fuel with
  | zero =>
    intro controls target g hg
    match controls with
    | [] => simp only [noAncillaAux, List.mem_singleton] at hg; subst hg; rfl
    | [c] => simp only [noAncillaAux, List.mem_singleton] at hg; subst hg; rfl
    | [c1, c2] => simp only [noAncillaAux, List.mem_singleton] at hg; subst hg; rfl
    | c1 :: c2 :: c3 :: rest => simp [noAncillaAux] at hg
  | succ fuel ih =>
    intro controls target g hg
    match controls with
    | [] => simp only [noAncillaAux, List.mem_singleton] at hg; subst hg; rfl
    | [c] => simp only [noAncillaAux, List.mem_singleton] at hg; subst hg; rfl
    | [c1, c2] => simp only [noAncillaAux, List.mem_singleton] at hg; subst hg; rfl
    | c1 :: c2 :: c3 :: rest =>
      simp only [noAncillaAux, List.mem_append] at hg
      rcases hg with ((h1 | h2) | h3) | h4
      · exact ih _ target g h1
      · exact ih _ target g h2
      · exact ih _ target g h3
      · exact ih _ target g h4

/-- Structure of one `pairUpG` layer: gates touch only the incoming nodes
and ancillas, the next layer's nodes come from the incoming nodes and the
consumed ancillas, and the unconsumed ancillas are a sublist of the
incoming ones. -/
theorem pairUpG_spec (nodes : List Nat) (as : List Nat) :
    (∀ g ∈ (pairUpG nodes as).1, ∀ q ∈ g.qubits, q ∈ nodes ∨ q ∈ as) ∧
    (∀ x ∈ (pairUpG nodes as).2.1, x ∈ nodes ∨ x ∈ as) ∧
    (pairUpG nodes as).2.2.Sublist as := by
  match nodes, as with
  | [], as => exact ⟨by simp [pairUpG], by simp [pairUpG], List.Sublist.refl _⟩
  | [c], as =>
    refine ⟨by simp [pairUpG], ?_, List.Sublist.refl _⟩
    intro x hx
    simp only [pairUpG, List.mem_singleton] at hx
    exact Or.inl (by rw [hx]; exact List.mem_cons_self _ _)
  | c1 :: c2 :: rest, [] =>
    refine ⟨by simp [pairUpG], ?_, List.Sublist.refl _⟩
    intro x hx
    simp only [pairUpG] at hx
    exact Or.inl hx
  | c1 :: c2 :: rest, a :: as2 =>
    obtain ⟨ihg, ihn, ihs⟩ := pairUpG_spec rest as2
    refine ⟨?_, ?_, ?_⟩
    · intro g hg q hq
      simp only [pairUpG] at hg
      rcases List.mem_cons.mp hg with hg0 | hg0
      · subst hg0
        simp only [Gate.qubits, List.mem_cons, List.mem_singleton] at hq
        rcases hq with hh | hh | hh
        · exact Or.inl (by rw [hh]; exact List.mem_cons_self _ _)
        · exact Or.inl (by rw [hh]; exact List.mem_cons_of_mem _ (List.mem_cons_self _ _))
        · simp at hh
          exact Or.inr (by rw [hh]; exact List.mem_cons_self _ _)
      · rcases ihg g hg0 q hq with hh | hh
        · exact Or.inl (List.mem_cons_of_mem _ (List.mem_cons_of_mem _ hh))
        · exact Or.inr (List.mem_cons_of_mem _ hh)
    · intro x hx
      simp only [pairUpG] at hx
      rcases List.mem_cons.mp hx with hx0 | hx0
      · exact Or.inr (by rw [hx0]; exact List.mem_cons_self _ _)
      · rcases ihn x hx0 with hh | hh
        · exact Or.inl (List.mem_cons_of_mem _ (List.mem_cons_of_mem _ hh))
        · exact Or.inr (List.mem_cons_of_mem _ hh)
    · show (pairUpG (c1 :: c2 :: rest) (a :: as2)).2.2.Sublist (a :: as2)
      simp only [pairUpG]
      exact ihs.trans (List.sublist_cons_self _ _)
termination_by nodes.length

/-- Every `pairUpG` gate is well-formed when the incoming nodes are disjoint
from the ancillas and the ancillas are distinct; the next layer inherits
the invariant. -/
theorem pairUpG_wf (nodes : List Nat) (as : List Nat)
    (hdisj : ∀ x ∈ nodes, x ∉ as) (hnd : as.Nodup) :
    (∀ g ∈ (pairUpG nodes as).1, g.wf) ∧
    (∀ x ∈ (pairUpG nodes as).2.1, x ∉ (pairUpG nodes as).2.2) ∧
    (pairUpG nodes as).2.2.Nodup := by
  match nodes, as with
  | [], as => exact ⟨by simp [pairUpG], by simp [pairUpG], hnd⟩
  | [c], as =>
    refine ⟨by simp [pairUpG], ?_, hnd⟩
    intro x hx
    simp only [pairUpG, List.mem_singleton] at hx
    simp only [pairUpG]
    rw [hx]
    exact hdisj c (List.mem_cons_self _ _)
  | c1 :: c2 :: rest, [] =>
    exact ⟨by simp [pairUpG], by simp [pairUpG], hnd⟩
  | c1 :: c2 :: rest, a :: as2 =>
    obtain ⟨ha, hnd2⟩ := List.nodup_cons.mp hnd
    have hdisj2 : ∀ x ∈ rest, x ∉ as2 := fun x hx hmem =>
      hdisj x (List.mem_cons_of_mem _ (List.mem_cons_of_mem _ hx))
        (List.mem_cons_of_mem _ hmem)
    obtain ⟨ihw, ihn, ihnd⟩ := pairUpG_wf rest as2 hdisj2 hnd2
    have hremsub : (pairUpG rest as2).2.2.Sublist as2 := (pairUpG_spec rest as2).2.2
    refine ⟨?_, ?_, by simp only [pairUpG]; exact ihnd⟩
    · intro g hg
      simp only [pairUpG] at hg
      rcases List.mem_cons.mp hg with hg0 | hg0
      · subst hg0
        refine ⟨fun hh => hdisj c1 (List.mem_cons_self _ _)
          (by rw [← hh]; exact List.mem_cons_self _ _), fun hh =>
          hdisj c2 (List.mem_cons_of_mem _ (List.mem_cons_self _ _))
            (by rw [← hh]; exact List.mem_cons_self _ _)⟩
      · exact ihw g hg0
    · intro x hx
      simp only [pairUpG] at hx ⊢
      rcases List.mem_cons.mp hx with hx0 | hx0
      · subst hx0
        exact fun hmem => ha (hremsub.mem hmem)
      · exact ihn x hx0
termination_by nodes.length

/-- Structure of the whole reduction tree: every emitted gate touches only
the incoming nodes and ancillas, and every gate is well-formed under the
disjointness invariant. -/
theorem reduceTreeG_spec (fuel : Nat) :
    ∀ (nodes as : List Nat), (∀ x ∈ nodes, x ∉ as) → as.Nodup →
      (∀ g ∈ (reduceTreeG fuel nodes as).1, ∀ q ∈ g.qubits, q ∈ nodes ∨ q ∈ as) ∧
      (∀ g ∈ (reduceTreeG fuel nodes as).1, g.wf) := by
  induction fuel with
  | zero => intro nodes as _ _; exact ⟨by simp [reduceTreeG], by simp [reduceTreeG]⟩
  | succ fuel ih =>
    intro nodes as hdisj hnd
    match nodes, as with
    | [], as => exact ⟨by simp [reduceTreeG], by simp [reduceTreeG]⟩
    | [c], as => exact ⟨by simp [reduceTreeG], by simp [reduceTreeG]⟩
    | c1 :: c2 :: rest, [] => exact ⟨by simp [reduceTreeG], by simp [reduceTreeG]⟩
    | c1 :: c2 :: rest, a :: as2 =>
      obtain ⟨hpq, hpn, hps⟩ := pairUpG_spec (c1 :: c2 :: rest) (a :: as2)
      obtain ⟨hpw, hpd, hpnd⟩ := pairUpG_wf (c1 :: c2 :: rest) (a :: as2) hdisj hnd
      obtain ⟨ihq, ihw⟩ := ih (pairUpG (c1 :: c2 :: rest) (a :: as2)).2.1
        (pairUpG (c1 :: c2 :: rest) (a :: as2)).2.2 hpd hpnd
      constructor
      · intro g hg q hq
        simp only [reduceTreeG, List.mem_append] at hg
        rcases hg with hg0 | hg0
        · exact hpq g hg0 q hq
        · rcases ihq g hg0 q hq with hh | hh
          · exact hpn q hh
          · exact Or.inr (hps.mem hh)
      · intro g hg
        simp only [reduceTreeG, List.mem_append] at hg
        rcases hg with hg0 | hg0
        · exact hpw g hg0
        · exact ihw g hg0

/-- The chain segment accepts exactly when there is one ancilla per
remaining control. -/
theorem chainSeg_isSome (cs : List Nat) :
    ∀ (as : List Nat) (prev : Nat),
      (chainSeg prev cs as).isSome = true ↔ cs.length ≤ as.length := by
  induction cs with
  | nil => intro as prev; simp [chainSeg]
  | cons c cs ih =>
    intro as prev
    cases as with
    | nil => simp [chainSeg]
    | cons a as2 =>
      simp only [chainSeg, List.length_cons, Nat.add_le_add_iff_right]
      cases hrec : chainSeg a cs as2 with
      | none =>
        have := (ih as2 a)
        rw [hrec] at this
        simp only [Option.isSome_none, Bool.false_eq_true, false_iff] at this
        simpa using this
      | some p =>
        have := (ih as2 a)
        rw [hrec] at this
        simp only [Option.isSome_some, true_iff] at this
        simpa using this

/-- V-chain acceptance: the strategy accepts exactly the configurations with
`len(ancillas) ≥ k − 1` (for `k ≤ 1` any ancilla count). -/
theorem vchain_isSome (controls : List Nat) (target : Nat) (ancillas : List Nat) :
    (vchain controls target ancillas).isSome = true
      ↔ controls.length ≤ ancillas.length + 1 := by
  match controls with
  | [] => simp [vchain]
  | [c] => simp [vchain]
  | c0 :: c1 :: rest =>
    cases ancillas with
    | nil =>
      simp only [vchain, List.length_cons, List.length_nil]
      simp
    | cons a0 as =>
      simp only [vchain, List.length_cons, Nat.add_le_add_iff_right]
      cases hrec : chainSeg a0 rest as with
      | none =>
        have := chainSeg_isSome rest as a0
        rw [hrec] at this
        simp only [Option.isSome_none, Bool.false_eq_true, false_iff] at this
        simpa using this
      | some p =>
        have := chainSeg_isSome rest as a0
        rw [hrec] at this
        simp only [Option.isSome_some, true_iff] at this
        simpa using this

/-- C1: for every control count and every ancilla count the V-chain strategy
accepts — characterized by `len(ancillas) ≥ k − 1` — the fully assembled
compute/copy/uncompute circuit realizes the MCX truth table on computational
basis states: the target is flipped exactly when all controls are one, and
every other qubit (controls, ancillas, bystanders) is unchanged; in
particular this covers all `k ∈ [0, 20]`. -/
theorem C1_vchain_mcx_truth_table :
    (∀ (controls : List Nat) (target : Nat) (ancillas : List Nat),
      (vchain controls target ancillas).isSome = true
        ↔ controls.length ≤ ancillas.length + 1) ∧
    (∀ (controls : List Nat) (target : Nat) (ancillas : List Nat)
      (gs : List Gate) (s : Nat → Bool),
      vchain controls target ancillas = some gs →
      controls.Nodup → ancillas.Nodup →
      target ∉ controls → target ∉ ancillas →
      (∀ c ∈ controls, c ∉ ancillas) →
      (∀ a ∈ ancillas, s a = false) →
      applyCircuit gs s
        = Function.update s target (xor (s target) (controls.all s))) :=
  ⟨vchain_isSome, fun controls target ancillas gs s h hcn han hct hat hca hzero =>
    vchain_spec controls target ancillas gs s h hcn han hct hat hca hzero⟩

/-- Basis state with qubits `0, 1, 2` set and all others clear: the
all-controls-one input for a three-control example. -/
def exState1 : Nat → Bool := fun q => decide (q < 3)

/-- Witness for C1 at `k = 3`, controls `[0,1,2]`, target `3`,
ancillas `[4,5]`. -/
theorem C1_witness :
    ((vchain [0, 1, 2] 3 [4, 5]).isSome = true ↔ [0, 1, 2].length ≤ [4, 5].length + 1) ∧
    applyCircuit ((vchain [0, 1, 2] 3 [4, 5]).getD []) exState1
      = Function.update exState1 3 (xor (exState1 3) ([0, 1, 2].all exState1)) :=
  ⟨C1_vchain_mcx_truth_table.1 [0, 1, 2] 3 [4, 5],
   C1_vchain_mcx_truth_table.2 [0, 1, 2] 3 [4, 5] _ exState1 rfl
     (by decide) (by decide) (by decide) (by decide) (by decide) (by decide)⟩

/-- C3: for every decomposition strategy, every control/ancilla configuration
the strategy accepts, and every computational-basis input whose ancillas
start at zero, the full emitted sequence (compute plus mandatory uncompute)
leaves every ancilla qubit at zero. -/
theorem C3_ancilla_restoration (st : Strategy) (controls : List Nat) (target : Nat)
    (ancillas : List Nat) (gs : List Gate) (s : Nat → Bool)
    (h : runStrategy st controls target ancillas = some gs)
    (hcn : controls.Nodup) (han : ancillas.Nodup)
    (hct : target ∉ controls) (hat : target ∉ ancillas)
    (hca : ∀ c ∈ controls, c ∉ ancillas)
    (hzero : ∀ a ∈ ancillas, s a = false) :
    ∀ a ∈ ancillas, applyCircuit gs s a = false := by
  intro a ha
  have hat2 : a ≠ target := fun hh => hat (hh ▸ ha)
  cases st with
  | vchainS =>
    have := vchain_spec controls target ancillas gs s h hcn han hct hat hca hzero
    rw [this, Function.update_noteq hat2]
    exact hzero a ha
  | noAncillaS =>
    simp only [runStrategy, Option.some.injEq] at h
    rw [← h, applyCircuit_not_mem]
    · exact hzero a ha
    · intro g hg hq
      rcases noAncilla_qubits controls target g hg a hq with hh | hh
      · exact hca a hh ha
      · exact hat2 hh
  | logDepthS =>
    simp only [runStrategy] at h
    match controls, h with
    | [], h =>
      simp only [logDepth, Option.some.injEq] at h
      rw [← h, applyCircuit_cons, applyCircuit_nil,
        applyGate_not_mem _ _ _ (by simpa [Gate.qubits] using hat2)]
      exact hzero a ha
    | [c], h =>
      simp only [logDepth, Option.some.injEq] at h
      have hac : a ≠ c := fun hh =>
        hca c (List.mem_cons_self _ _) (hh ▸ ha)
      rw [← h, applyCircuit_cons, applyCircuit_nil,
        applyGate_not_mem _ _ _ (by simp [Gate.qubits]; exact ⟨hac, hat2⟩)]
      exact hzero a ha
    | c1 :: c2 :: rest, h =>
      simp only [logDepth] at h
      split at h
      · simp only [Option.some.injEq] at h
        obtain ⟨hq, hw⟩ :=
          reduceTreeG_spec (c1 :: c2 :: rest).length (c1 :: c2 :: rest) ancillas hca han
        have htq : ∀ g ∈ (reduceTreeG (c1 :: c2 :: rest).length
            (c1 :: c2 :: rest) ancillas).1, target ∉ g.qubits := by
          intro g hg hqt
          rcases hq g hg target hqt with hh | hh
          · exact hct hh
          · exact hat hh
        rw [← h, compute_mid_uncompute _
          (noAncilla (reduceTreeG (c1 :: c2 :: rest).length
            (c1 :: c2 :: rest) ancillas).2 target) target s hw htq
          (fun g hg => noAncillaAux_tgt _ _ target g hg) a hat2]
        exact hzero a ha
      · exact absurd h (by simp)

/-- Basis state with qubits `0, 1, 2, 3` set and all others clear. -/
def exState2 : Nat → Bool := fun q => decide (q < 4)

/-- Witness for C3: the logarithmic-depth strategy at `k = 4`, controls
`[0,1,2,3]`, target `4`, at the minimal accepted ancilla budget
`⌈4/2⌉ − 1 = 1` (ancilla list `[5]`), on the all-controls-one basis state,
accepts the configuration and returns the ancilla to zero. -/
theorem C3_witness :
    (logDepth [0, 1, 2, 3] 4 [5]).isSome = true ∧
    applyCircuit ((logDepth [0, 1, 2, 3] 4 [5]).getD []) exState2 5 = false :=
  ⟨by decide,
   C3_ancilla_restoration .logDepthS [0, 1, 2, 3] 4 [5] _ exState2 rfl
      (by decide) (by decide) (by decide) (by decide) (by decide) (by decide)
      5 (by decide)⟩

/-- The cyclotomic field ℚ(ζ₈): `a + b·ζ + c·ζ² + d·ζ³` with
`ζ = exp(iπ/4)`, `ζ⁴ = −1`.  It contains `i = ζ²` and `1/√2 = (ζ − ζ³)/2`,
and every amplitude arising in Clifford+T circuits — exact state-vector
arithmetic for the basis-rewrite check. -/
structure Zeta8 where
  a : ℚ
  b : ℚ
  c : ℚ
  d : ℚ
  deriving DecidableEq, Repr

def Zeta8.add (p q : Zeta8) : Zeta8 := ⟨p.a + q.a, p.b + q.b, p.c + q.c, p.d + q.d⟩

/-- Multiplication modulo `ζ⁴ = −1`. -/
def Zeta8.mul (p q : Zeta8) : Zeta8 :=
  ⟨p.a * q.a - p.b * q.d - p.c * q.c - p.d * q.b,
   p.a * q.b + p.b * q.a - p.c * q.d - p.d * q.c,
   p.a * q.c + p.b * q.b + p.c * q.a - p.d * q.d,
   p.a * q.d + p.b * q.c + p.c * q.b + p.d * q.a⟩

def Zeta8.neg (p : Zeta8) : Zeta8 := ⟨-p.a, -p.b, -p.c, -p.d⟩

instance : Add Zeta8 := ⟨Zeta8.add⟩

instance : Mul Zeta8 := ⟨Zeta8.mul⟩

instance : Neg Zeta8 := ⟨Zeta8.neg⟩

instance : Zero Zeta8 := ⟨⟨0, 0, 0, 0⟩⟩

instance : One Zeta8 := ⟨⟨1, 0, 0, 0⟩⟩

/-- The generator `ζ = exp(iπ/4)` (the T-gate phase). -/
def Zeta8.zeta : Zeta8 := ⟨0, 1, 0, 0⟩

/-- `ζ⁻¹ = ζ⁷ = −ζ³` (the T†-gate phase). -/
def Zeta8.zetaInv : Zeta8 := ⟨0, 0, 0, -1⟩

/-- `1/√2 = (ζ − ζ³)/2` (the Hadamard normalization). -/
def Zeta8.invSqrt2 : Zeta8 := ⟨0, 1/2, 0, -1/2⟩

theorem Zeta8.ext4 {p q : Zeta8} (ha : p.a = q.a) (hb : p.b = q.b)
    (hc : p.c = q.c) (hd : p.d = q.d) : p = q := by
  cases p; cases q; simp_all

theorem Zeta8.add_def (p q : Zeta8) :
    p + q = ⟨p.a + q.a, p.b + q.b, p.c + q.c, p.d + q.d⟩ := rfl

theorem Zeta8.mul_def (p q : Zeta8) :
    p * q = ⟨p.a * q.a - p.b * q.d - p.c * q.c - p.d * q.b,
      p.a * q.b + p.b * q.a - p.c * q.d - p.d * q.c,
      p.a * q.c + p.b * q.b + p.c * q.a - p.d * q.d,
      p.a * q.d + p.b * q.c + p.c * q.b + p.d * q.a⟩ := rfl

theorem Zeta8.neg_def (p : Zeta8) : -p = ⟨-p.a, -p.b, -p.c, -p.d⟩ := rfl

/-- A quantum state over the whole (unbounded) qubit register: one exact
amplitude for every computational basis assignment. -/
def QState := (Nat → Bool) → Zeta8

/-- The true (amplitude-level) action of one gate on a quantum state, at
the gate's actual qubit positions: `X`/`CX`/`CCX` permute the basis
amplitudes, `T`/`T†` multiply the bit-set amplitudes by `ζ`/`ζ⁻¹`, and `H`
is the Hadamard with its exact `1/√2` normalization.  Each clause is linear
in the state, so equality of these actions on all states is equality of the
gates' unitaries. -/
def applyQN : Gate → QState → QState
  | .X t, v => fun σ => v (Function.update σ t (!σ t))
  | .H t, v => fun σ =>
      Zeta8.invSqrt2 * (v (Function.update σ t false) +
        (if σ t then -(v (Function.update σ t true))
         else v (Function.update σ t true)))
  | .T t, v => fun σ => if σ t then Zeta8.zeta * v σ else v σ
  | .Tdg t, v => fun σ => if σ t then Zeta8.zetaInv * v σ else v σ
  | .CX c t, v => fun σ => if σ c then v (Function.update σ t (!σ t)) else v σ
  | .CCX c1 c2 t, v => fun σ =>
      if σ c1 && σ c2 then v (Function.update σ t (!σ t)) else v σ

/-- Amplitude-level action of a gate sequence. -/
def applySeqN (gs : List Gate) (v : QState) : QState :=
  gs.foldl (fun w g => applyQN g w) v

theorem applySeqN_cons (g : Gate) (gs : List Gate) (v : QState) :
    applySeqN (g :: gs) v = applySeqN gs (applyQN g v) := rfl

/-- The gate shapes occurring in the Toffoli template, abstracted over its
three qubit slots (first control, second control, target). -/
inductive SGate where
  | h3
  | t3
  | tdg3
  | t1
  | t2
  | tdg2
  | cx23
  | cx13
  | cx12
  deriving DecidableEq, Repr

/-- Instantiate a slot gate at concrete qubit positions. -/
def SGate.inst (c1 c2 t : Nat) : SGate → Gate
  | .h3 => Gate.H t
  | .t3 => Gate.T t
  | .tdg3 => Gate.Tdg t
  | .t1 => Gate.T c1
  | .t2 => Gate.T c2
  | .tdg2 => Gate.Tdg c2
  | .cx23 => Gate.CX c2 t
  | .cx13 => Gate.CX c1 t
  | .cx12 => Gate.CX c1 c2

/-- Amplitude functions over the three slots only: the template's action on
the rest of the register is trivial, so this fragment determines it. -/
def F3 := Bool → Bool → Bool → Zeta8

/-- Slot-level action of a slot gate — the same amplitude formulas as
`applyQN`, restricted to the three-slot fragment. -/
def applyS : SGate → F3 → F3
  | .h3, f => fun b1 b2 b3 =>
      Zeta8.invSqrt2 * (f b1 b2 false +
        (if b3 then -(f b1 b2 true) else f b1 b2 true))
  | .t3, f => fun b1 b2 b3 => if b3 then Zeta8.zeta * f b1 b2 b3 else f b1 b2 b3
  | .tdg3, f => fun b1 b2 b3 => if b3 then Zeta8.zetaInv * f b1 b2 b3 else f b1 b2 b3
  | .t1, f => fun b1 b2 b3 => if b1 then Zeta8.zeta * f b1 b2 b3 else f b1 b2 b3
  | .t2, f => fun b1 b2 b3 => if b2 then Zeta8.zeta * f b1 b2 b3 else f b1 b2 b3
  | .tdg2, f => fun b1 b2 b3 => if b2 then Zeta8.zetaInv * f b1 b2 b3 else f b1 b2 b3
  | .cx23, f => fun b1 b2 b3 => if b2 then f b1 b2 (!b3) else f b1 b2 b3
  | .cx13, f => fun b1 b2 b3 => if b1 then f b1 b2 (!b3) else f b1 b2 b3
  | .cx12, f => fun b1 b2 b3 => if b1 then f b1 (!b2) b3 else f b1 b2 b3

/-- Slot-level action of a slot-gate word. -/
def applySs (sgs : List SGate) (f : F3) : F3 :=
  sgs.foldl (fun g sg => applyS sg g) f

theorem applySs_cons (sg : SGate) (sgs : List SGate) (f : F3) :
    applySs (sg :: sgs) f = applySs sgs (applyS sg f) := rfl

/-- Overwrite the three slots of a basis assignment. -/
def upd3 (σ : Nat → Bool) (c1 c2 t : Nat) (b1 b2 b3 : Bool) : Nat → Bool :=
  Function.update (Function.update (Function.update σ c1 b1) c2 b2) t b3

/-- The three-slot fragment of a quantum state around a background
assignment. -/
def fAbs (c1 c2 t : Nat) (v : QState) (σ : Nat → Bool) : F3 :=
  fun b1 b2 b3 => v (upd3 σ c1 c2 t b1 b2 b3)

theorem upd3_c1 (c1 c2 t : Nat) (σ : Nat → Bool) (b1 b2 b3 : Bool)
    (h12 : c1 ≠ c2) (h13 : c1 ≠ t) : upd3 σ c1 c2 t b1 b2 b3 c1 = b1 := by
  simp [upd3, Function.update_noteq h13, Function.update_noteq h12]

theorem upd3_c2 (c1 c2 t : Nat) (σ : Nat → Bool) (b1 b2 b3 : Bool)
    (h23 : c2 ≠ t) : upd3 σ c1 c2 t b1 b2 b3 c2 = b2 := by
  simp [upd3, Function.update_noteq h23]

theorem upd3_t (c1 c2 t : Nat) (σ : Nat → Bool) (b1 b2 b3 : Bool) :
    upd3 σ c1 c2 t b1 b2 b3 t = b3 := by
  simp [upd3]

theorem upd3_set_t (c1 c2 t : Nat) (σ : Nat → Bool) (b1 b2 b3 b3' : Bool) :
    Function.update (upd3 σ c1 c2 t b1 b2 b3) t b3' = upd3 σ c1 c2 t b1 b2 b3' := by
  simp [upd3, Function.update_idem]

theorem upd3_set_c2 (c1 c2 t : Nat) (σ : Nat → Bool) (b1 b2 b3 b2' : Bool)
    (h23 : c2 ≠ t) :
    Function.update (upd3 σ c1 c2 t b1 b2 b3) c2 b2' = upd3 σ c1 c2 t b1 b2' b3 := by
  unfold upd3
  rw [Function.update_comm (Ne.symm h23), Function.update_idem]

/-- The slot abstraction commutes with every template gate, at every
distinct placement of the three slots.  Reading a slot returns its
overwritten bit; writing the target or the second control stays inside the
slot fragment. -/
theorem bridge_gate (c1 c2 t : Nat) (h12 : c1 ≠ c2) (h13 : c1 ≠ t) (h23 : c2 ≠ t)
    (sg : SGate) (v : QState) (σ : Nat → Bool) :
    fAbs c1 c2 t (applyQN (SGate.inst c1 c2 t sg) v) σ
      = applyS sg (fAbs c1 c2 t v σ) := by
  have hc1 := fun b1 b2 b3 => upd3_c1 c1 c2 t σ b1 b2 b3 h12 h13
  have hc2 := fun b1 b2 b3 => upd3_c2 c1 c2 t σ b1 b2 b3 h23
  have ht := fun b1 b2 b3 => upd3_t c1 c2 t σ b1 b2 b3
  have hst := fun b1 b2 b3 b3' => upd3_set_t c1 c2 t σ b1 b2 b3 b3'
  have hsc2 := fun b1 b2 b3 b2' => upd3_set_c2 c1 c2 t σ b1 b2 b3 b2' h23
  funext b1 b2 b3
  cases sg <;> simp only [SGate.inst, applyQN, applyS, fAbs, hc1, hc2, ht, hst, hsc2]

/-- The slot abstraction commutes with a whole instantiated slot-gate
word. -/
theorem bridge_seq (c1 c2 t : Nat) (h12 : c1 ≠ c2) (h13 : c1 ≠ t) (h23 : c2 ≠ t)
    (sgs : List SGate) (v : QState) (σ : Nat → Bool) :
    fAbs c1 c2 t (applySeqN (sgs.map (SGate.inst c1 c2 t)) v) σ
      = applySs sgs (fAbs c1 c2 t v σ) := by
  induction sgs generalizing v with
  | nil => rfl
  | cons sg sgs ih =>
    rw [List.map_cons, applySeqN_cons, applySs_cons, ih,
      bridge_gate c1 c2 t h12 h13 h23 sg v σ]

/-- The Toffoli template as a word in slot gates. -/
def templateS : List SGate :=
  [.h3, .cx23, .tdg3, .cx13, .t3, .cx23, .tdg3, .cx13, .t2, .t3, .cx12, .h3,
   .t1, .tdg2, .cx12]

/-- The template word composes, at the slot level, to exactly the Toffoli
action — target bit complemented iff both control bits are set, no
global-phase discrepancy — verified by exact amplitude arithmetic over
ℚ(ζ₈) on every one of the 8 slot assignments, for an arbitrary amplitude
function. -/
theorem templateS_core (f : F3) (b1 b2 b3 : Bool) :
    applySs templateS f b1 b2 b3 = f b1 b2 (xor b3 (b1 && b2)) := by
  cases b1 <;> cases b2 <;> cases b3 <;>
    · refine Zeta8.ext4 ?_ ?_ ?_ ?_ <;>
        · simp [templateS, applySs, applyS, Zeta8.invSqrt2, Zeta8.zeta,
            Zeta8.zetaInv, Zeta8.mul_def, Zeta8.add_def, Zeta8.neg_def]
          ring

/-- Modelled from the spec: the standard exact rewrite of a Toffoli gate
into the `{CX, single-qubit}` vocabulary — two Hadamards, seven `T`/`T†`
phases and six `CX` gates. -/
def ccxTemplate (c1 c2 t : Nat) : List Gate :=
  [Gate.H t, Gate.CX c2 t, Gate.Tdg t, Gate.CX c1 t, Gate.T t, Gate.CX c2 t,
   Gate.Tdg t, Gate.CX c1 t, Gate.T c2, Gate.T t, Gate.CX c1 c2, Gate.H t,
   Gate.T c1, Gate.Tdg c2, Gate.CX c1 c2]

/-- Gate kinds, the vocabulary items a Basis Gate Set can allow. -/
inductive GateKind where
  | x
  | h
  | t
  | tdg
  | cx
  | ccx
  deriving DecidableEq, Repr

def Gate.kind : Gate → GateKind
  | .X _ => .x
  | .H _ => .h
  | .T _ => .t
  | .Tdg _ => .tdg
  | .CX _ _ => .cx
  | .CCX _ _ _ => .ccx

/-- Modelled from the spec: one element of a Basis Gate Set — either a
specific gate kind or `u`, the single-qubit-universal vocabulary item
(the notebook's `basis_gates=["cx", "u"]`), which admits every
single-qubit gate. -/
inductive BasisGate where
  | u
  | x
  | h
  | t
  | tdg
  | cx
  | ccx
  deriving DecidableEq, Repr

/-- Whether a gate kind is directly expressible in the basis. -/
def kindAllowed : GateKind → List BasisGate → Bool
  | .x, basis => basis.contains .x || basis.contains .u
  | .h, basis => basis.contains .h || basis.contains .u
  | .t, basis => basis.contains .t || basis.contains .u
  | .tdg, basis => basis.contains .tdg || basis.contains .u
  | .cx, basis => basis.contains .cx
  | .ccx, basis => basis.contains .ccx

/-- Modelled from the spec: the typed error taxonomy of the engine. -/
inductive SynthError where
  | InfeasibleWidth (requiredMinimum : Nat)
  | UnsupportedBasis
  | InvalidArgument
  deriving DecidableEq, Repr

/-- Modelled from the spec: the Gate Algebra's `expand_to_basis`.  A gate
whose kind the basis allows is its own (fixed-point) expansion; a Toffoli
over a basis with `cx` and single-qubit-universal support is rewritten by
the exact fifteen-gate template; everything else has no bridging rule and
fails with `UnsupportedBasis`. -/
def expandToBasis (g : Gate) (basis : List BasisGate) : Except SynthError (List Gate) :=
  if kindAllowed g.kind basis then Except.ok [g]
  else
    match g with
    | .CCX c1 c2 t =>
      if basis.contains .cx && basis.contains .u then Except.ok (ccxTemplate c1 c2 t)
      else Except.error .UnsupportedBasis
    | _ => Except.error .UnsupportedBasis

/-- `expand_to_basis` applied elementwise to a whole sequence. -/
def expandAll : List Gate → List BasisGate → Except SynthError (List Gate)
  | [], _ => Except.ok []
  | g :: gs, basis =>
    match expandToBasis g basis, expandAll gs basis with
    | Except.ok e, Except.ok rest => Except.ok (e ++ rest)
    | Except.error err, _ => Except.error err
    | Except.ok _, Except.error err => Except.error err

/-- Closure: a successful expansion emits only kinds the basis allows. -/
theorem expandToBasis_kinds (g : Gate) (basis : List BasisGate) (gs : List Gate)
    (h : expandToBasis g basis = Except.ok gs) :
    ∀ g2 ∈ gs, kindAllowed g2.kind basis = true := by
  unfold expandToBasis at h
  split at h
  · simp only [Except.ok.injEq] at h
    intro g2 hg2
    rw [← h] at hg2
    simp only [List.mem_singleton] at hg2
    subst hg2
    assumption
  · split at h
    case _ c1 c2 t =>
      split at h
      case _ hcu =>
        simp only [Except.ok.injEq] at h
        simp only [Bool.and_eq_true] at hcu
        have hcx : BasisGate.cx ∈ basis := by simpa using hcu.1
        have hu : BasisGate.u ∈ basis := by simpa using hcu.2
        intro g2 hg2
        rw [← h] at hg2
        simp only [ccxTemplate, List.mem_cons, List.not_mem_nil, or_false] at hg2
        rcases hg2 with rfl | rfl | rfl | rfl | rfl | rfl | rfl | rfl | rfl | rfl | rfl
          | rfl | rfl | rfl | rfl <;> simp [Gate.kind, kindAllowed, hcx, hu]
      case _ => exact absurd h (by simp)
    case _ => exact absurd h (by simp)

/-- The only failure `expand_to_basis` reports is `UnsupportedBasis`. -/
theorem expandToBasis_error (g : Gate) (basis : List BasisGate) (e : SynthError)
    (h : expandToBasis g basis = Except.error e) : e = SynthError.UnsupportedBasis := by
  unfold expandToBasis at h
  split at h
  · simp at h
  · split at h
    case _ c1 c2 t =>
      split at h
      · simp at h
      · simp only [Except.error.injEq] at h
        exact h.symm
    case _ => simp only [Except.error.injEq] at h; exact h.symm

/-- A gate already expressible in the basis is a fixed point of the
rewrite. -/
theorem expandToBasis_fixed (g : Gate) (basis : List BasisGate)
    (h : kindAllowed g.kind basis = true) : expandToBasis g basis = Except.ok [g] := by
  unfold expandToBasis
  rw [h]
  simp

/-- A sequence all of whose kinds the basis allows expands to itself. -/
theorem expandAll_fixed (gs : List Gate) (basis : List BasisGate)
    (h : ∀ g ∈ gs, kindAllowed g.kind basis = true) :
    expandAll gs basis = Except.ok gs := by
  induction gs with
  | nil => rfl
  | cons g gs ih =>
    have h1 := expandToBasis_fixed g basis (h g (List.mem_cons_self _ _))
    have h2 := ih (fun g2 hg2 => h g2 (List.mem_cons_of_mem _ hg2))
    simp only [expandAll, h1, h2, List.singleton_append]

/-- The fifteen-gate template composes to exactly the Toffoli unitary (no
global-phase discrepancy) — at every placement of the two controls and the
target on distinct qubits, on every quantum state: the template is the slot
word `templateS` instantiated at the placement, the slot abstraction
commutes with each of its gates, and the slot word composes to the Toffoli
action by exact ℚ(ζ₈) arithmetic. -/
theorem ccxTemplate_unitary (c1 c2 t : Nat) (h12 : c1 ≠ c2) (h13 : c1 ≠ t)
    (h23 : c2 ≠ t) (v : QState) :
    applySeqN (ccxTemplate c1 c2 t) v = applyQN (Gate.CCX c1 c2 t) v := by
  funext σ
  have hmap : ccxTemplate c1 c2 t = templateS.map (SGate.inst c1 c2 t) := rfl
  have hσ : upd3 σ c1 c2 t (σ c1) (σ c2) (σ t) = σ := by
    simp [upd3, Function.update_eq_self]
  calc applySeqN (ccxTemplate c1 c2 t) v σ
      = fAbs c1 c2 t (applySeqN (templateS.map (SGate.inst c1 c2 t)) v) σ
          (σ c1) (σ c2) (σ t) := by
        rw [hmap]
        show _ = applySeqN (templateS.map (SGate.inst c1 c2 t)) v
          (upd3 σ c1 c2 t (σ c1) (σ c2) (σ t))
        rw [hσ]
    _ = applySs templateS (fAbs c1 c2 t v σ) (σ c1) (σ c2) (σ t) := by
        rw [bridge_seq c1 c2 t h12 h13 h23]
    _ = fAbs c1 c2 t v σ (σ c1) (σ c2) (xor (σ t) (σ c1 && σ c2)) :=
        templateS_core _ _ _ _
    _ = applyQN (Gate.CCX c1 c2 t) v σ := by
        show v (upd3 σ c1 c2 t (σ c1) (σ c2) (xor (σ t) (σ c1 && σ c2))) = _
        simp only [upd3, Function.update_eq_self, applyQN]
        cases hc : σ c1 && σ c2 <;>
          simp [hc, Bool.xor_false, Bool.xor_true, Function.update_eq_self]

/-- C4: `expand_to_basis` (i) only ever emits kinds the basis allows,
(ii) fails only with `UnsupportedBasis` (e.g. a CNOT against a basis with no
entangling gate), and (iii) its one non-identity rewrite — the Toffoli
template — composes to the source gate's unitary exactly, at every distinct
placement and on every quantum state. -/
theorem C4_expand_to_basis_correct :
    (∀ (g : Gate) (basis : List BasisGate) (gs : List Gate),
      expandToBasis g basis = Except.ok gs →
      ∀ g2 ∈ gs, kindAllowed g2.kind basis = true) ∧
    (∀ (g : Gate) (basis : List BasisGate) (e : SynthError),
      expandToBasis g basis = Except.error e → e = SynthError.UnsupportedBasis) ∧
    expandToBasis (Gate.CX 0 1) [BasisGate.u] = Except.error SynthError.UnsupportedBasis ∧
    (∀ (c1 c2 t : Nat), c1 ≠ c2 → c1 ≠ t → c2 ≠ t → ∀ v : QState,
      applySeqN (ccxTemplate c1 c2 t) v = applyQN (Gate.CCX c1 c2 t) v) :=
  ⟨expandToBasis_kinds, expandToBasis_error, rfl,
   fun c1 c2 t h12 h13 h23 v => ccxTemplate_unitary c1 c2 t h12 h13 h23 v⟩

/-- Witness for C4: expanding a Toffoli at the (non-canonical) placement
controls `2, 0`, target `1`, against the notebook's `{cx, u}` basis, stays
inside the basis, and the emitted sequence has exactly the Toffoli action
on every quantum state. -/
theorem C4_witness :
    (∀ g2 ∈ ccxTemplate 2 0 1,
      kindAllowed g2.kind [BasisGate.cx, BasisGate.u] = true) ∧
    applySeqN (ccxTemplate 2 0 1) = applyQN (Gate.CCX 2 0 1) :=
  ⟨C4_expand_to_basis_correct.1 (Gate.CCX 2 0 1) [BasisGate.cx, BasisGate.u]
     (ccxTemplate 2 0 1) rfl,
   funext fun v => C4_expand_to_basis_correct.2.2.2 2 0 1 (by decide) (by decide)
     (by decide) v⟩

/-- C7: the rewrite is idempotent — a sequence produced by
`expand_to_basis` re-expands (elementwise, same basis) to exactly itself. -/
theorem C7_expand_to_basis_idempotent (g : Gate) (basis : List BasisGate)
    (gs : List Gate) (h : expandToBasis g basis = Except.ok gs) :
    expandAll gs basis = Except.ok gs :=
  expandAll_fixed gs basis (expandToBasis_kinds g basis gs h)

/-- Witness for C7: re-expanding the expansion of a Toffoli on qubits
`3, 4, 5` over the `{cx, u}` basis returns it unchanged. -/
theorem C7_witness :
    expandAll (ccxTemplate 3 4 5) [BasisGate.cx, BasisGate.u]
      = Except.ok (ccxTemplate 3 4 5) :=
  C7_expand_to_basis_idempotent (Gate.CCX 3 4 5) [BasisGate.cx, BasisGate.u]
    (ccxTemplate 3 4 5) rfl

/-- Modelled from the spec: the optimization objective of a Constraints
value — minimize circuit depth or minimize entangling-gate count. -/
inductive Objective where
  | depth
  | cxCount
  deriving DecidableEq, Repr

/-- Modelled from the spec: ancillas each strategy consumes for `k`
controls: the V-chain needs `k − 1`; the no-ancilla strategy none; the
logarithmic-depth tree `⌈k/2⌉ − 1` (one per Toffoli of its first and
widest layer). -/
def ancillaNeed : Strategy → Nat → Nat
  | .vchainS, k => k - 1
  | .noAncillaS, _ => 0
  | .logDepthS, k => (k + 1) / 2 - 1

/-- The strategy's circuit at the canonical qubit layout: controls
`0..k−1`, target `k`, ancillas `k+1..k+a`. -/
def canonicalCircuit (st : Strategy) (k : Nat) : Option (List Gate) :=
  runStrategy st (List.range k) k (List.range' (k + 1) (ancillaNeed st k))

/-- One scheduling step: a gate starts after the busiest of its qubits and
occupies them for one layer. -/
def depthStep (acc : (Nat → Nat) × Nat) (g : Gate) : (Nat → Nat) × Nat :=
  let d := 1 + g.qubits.foldl (fun m r => max m (acc.1 r)) 0
  (fun q => if q ∈ g.qubits then d else acc.1 q, max acc.2 d)

/-- Modelled from the spec: circuit depth — the length of the longest chain
of gates connected by shared qubits (gates on disjoint qubits share a
layer), computed by list scheduling. -/
def computeDepth (gs : List Gate) : Nat :=
  (gs.foldl depthStep (fun _ => 0, 0)).2

/-- Gate-kind counts of the final sequence. -/
def countKind (gs : List Gate) (kd : GateKind) : Nat :=
  List.length (gs.filter (fun g => decide (g.kind = kd)))

/-- Modelled from the spec: the Synthesis Result — the deliverable circuit
with its computed metrics. -/
structure SynthResult where
  circuit : List Gate
  depth : Nat
  counts : GateKind → Nat

/-- The cost of a finished circuit under the requested objective. -/
def metric (obj : Objective) (gs : List Gate) : Nat :=
  match obj with
  | .depth => computeDepth gs
  | .cxCount => countKind gs .cx + countKind gs .ccx

/-- The strategies in declaration order (the planner's final tie-break). -/
def strategyList : List Strategy := [.vchainS, .noAncillaS, .logDepthS]

/-- A planning candidate: strategy, ancilla count, and the circuit whose
cost the planner evaluates. -/
def Cand : Type := Strategy × Nat × List Gate

/-- Does an ancilla count fit the width budget?  (`a ∈ [0, max_width−k−1]`,
i.e. `a + k + 1 ≤ max_width`; an absent bound accepts everything.) -/
def budgetOK (need : Nat) (w : Option Nat) (k : Nat) : Bool :=
  match w with
  | none => true
  | some w2 => decide (need + k + 1 ≤ w2)

/-- Deterministic preference among candidates: strictly lower cost first,
then strictly fewer ancillas; otherwise the incumbent (earlier declaration
order) is kept. -/
def betterCand (obj : Objective) (c1 c2 : Cand) : Bool :=
  decide (metric obj c1.2.2 < metric obj c2.2.2) ||
    (decide (metric obj c1.2.2 = metric obj c2.2.2) && decide (c1.2.1 < c2.2.1))

def pickStep (obj : Objective) (best : Option Cand) (c : Cand) : Option Cand :=
  match best with
  | none => some c
  | some b => if betterCand obj c b then some c else some b

/-- Modelled from the spec: cost-minimal selection with deterministic
tie-breaks (lower cost, then lower ancilla count, then declaration
order). -/
def pickBest (obj : Objective) (l : List Cand) : Option Cand :=
  l.foldl (pickStep obj) none

/-- The planner's candidate for one strategy at the synthesis level:
feasible ancilla count, strategy accepts, and the emitted gates expand into
the basis. -/
def candidateFor (k : Nat) (basis : List BasisGate) (st : Strategy) : Option Cand :=
  match canonicalCircuit st k with
  | none => none
  | some gs =>
    match expandAll gs basis with
    | Except.ok egs => some (st, ancillaNeed st k, egs)
    | Except.error _ => none

/-- All feasible synthesis candidates under the width budget. -/
def candidates (k : Nat) (w : Option Nat) (basis : List BasisGate) : List Cand :=
  strategyList.filterMap (fun st =>
    if budgetOK (ancillaNeed st k) w k then candidateFor k basis st else none)

/-- Modelled from the spec: the engine entry point.  Validates the basis,
enforces the `k + 1` width floor, enumerates feasible (strategy, ancilla)
candidates, selects the cost-minimal one, and returns the basis-conformant
circuit with its depth and gate-kind counts. -/
def synthesize (k : Nat) (w : Option Nat) (obj : Objective) (basis : List BasisGate) :
    Except SynthError SynthResult :=
  if basis.isEmpty then Except.error SynthError.InvalidArgument
  else
    match w with
    | some w2 =>
      if k + 1 > w2 then Except.error (SynthError.InfeasibleWidth (k + 1))
      else
        match pickBest obj (candidates k (some w2) basis) with
        | some c => Except.ok ⟨c.2.2, computeDepth c.2.2, fun kd => countKind c.2.2 kd⟩
        | none => Except.error SynthError.UnsupportedBasis
    | none =>
      match pickBest obj (candidates k none basis) with
      | some c => Except.ok ⟨c.2.2, computeDepth c.2.2, fun kd => countKind c.2.2 kd⟩
      | none => Except.error SynthError.UnsupportedBasis

/-- Modelled from the spec: a Decomposition Plan — strategy identifier,
ancillas consumed, and sub-plans for recursive strategies. -/
inductive Plan where
  | mk (strat : Strategy) (anc : Nat) (subs : List Plan)

/-- Modelled from the spec: the recursive no-ancilla plan, splitting the
control count into two halves per level (fuel-based structural recursion;
the fuel `k` always suffices since each half is strictly smaller). -/
def noAncillaPlanAux : Nat → Nat → Plan
  | 0, _ => Plan.mk .noAncillaS 0 []
  | fuel + 1, k =>
    if k ≤ 2 then Plan.mk .noAncillaS 0 []
    else Plan.mk .noAncillaS 0
      [noAncillaPlanAux fuel ((k + 1) / 2), noAncillaPlanAux fuel (k - (k + 1) / 2)]

def noAncillaPlan (k : Nat) : Plan := noAncillaPlanAux k k

/-- The plan a selected strategy materializes into. -/
def planOf (st : Strategy) (k : Nat) : Plan :=
  match st with
  | .noAncillaS => noAncillaPlan k
  | _ => Plan.mk st (ancillaNeed st k) []

/-- The planner's candidates (costed on the raw strategy circuits — the
planner contract has no basis argument). -/
def planCandidates (k : Nat) (w : Option Nat) : List Cand :=
  strategyList.filterMap (fun st =>
    if budgetOK (ancillaNeed st k) w k then
      match canonicalCircuit st k with
      | none => none
      | some gs => some (st, ancillaNeed st k, gs)
    else none)

/-- Modelled from the spec: `plan(k, max_width, objective)` — fails with
`InfeasibleWidth{required_minimum = k + 1}` exactly when even the
zero-ancilla strategy cannot fit, otherwise selects the cost-minimal
feasible (strategy, ancilla) pair.  (The `none` arm of the selection is
unreachable: the no-ancilla candidate always exists.) -/
def plan (k : Nat) (w : Option Nat) (obj : Objective) : Except SynthError Plan :=
  match w with
  | some w2 =>
    if k + 1 > w2 then Except.error (SynthError.InfeasibleWidth (k + 1))
    else
      match pickBest obj (planCandidates k (some w2)) with
      | some c => Except.ok (planOf c.1 k)
      | none => Except.error SynthError.InvalidArgument
  | none =>
    match pickBest obj (planCandidates k none) with
    | some c => Except.ok (planOf c.1 k)
    | none => Except.error SynthError.InvalidArgument

/-- Height of a plan tree (recursion depth of the planning). -/
def planHeight : Plan → Nat
  | .mk _ _ [] => 0
  | .mk st a (p :: ps) => max (planHeight p + 1) (planHeight (Plan.mk st a ps))

theorem betterCand_le (obj : Objective) (c1 c2 : Cand)
    (h : betterCand obj c1 c2 = true) : metric obj c1.2.2 ≤ metric obj c2.2.2 := by
  simp only [betterCand, Bool.or_eq_true, Bool.and_eq_true, decide_eq_true_eq] at h
  rcases h with h | ⟨h, _⟩
  · exact Nat.le_of_lt h
  · exact Nat.le_of_eq h

theorem betterCand_ge (obj : Objective) (c1 c2 : Cand)
    (h : betterCand obj c1 c2 = false) : metric obj c2.2.2 ≤ metric obj c1.2.2 := by
  simp only [betterCand, Bool.or_eq_false_iff, decide_eq_false_iff_not] at h
  exact Nat.le_of_not_lt h.1

theorem pickFold_ne_none (obj : Objective) (l : List Cand) :
    ∀ b : Cand, l.foldl (pickStep obj) (some b) ≠ none := by
  induction l with
  | nil => intro b; simp
  | cons x rest ih =>
    intro b
    simp only [List.foldl_cons, pickStep]
    split
    · exact ih x
    · exact ih b

theorem pickFold_mem (obj : Objective) (l : List Cand) :
    ∀ b c : Cand, l.foldl (pickStep obj) (some b) = some c → c = b ∨ c ∈ l := by
  induction l with
  | nil =>
    intro b c h
    simp only [List.foldl_nil, Option.some.injEq] at h
    exact Or.inl h.symm
  | cons x rest ih =>
    intro b c h
    simp only [List.foldl_cons, pickStep] at h
    split at h
    · rcases ih x c h with h1 | h1
      · exact Or.inr (h1 ▸ List.mem_cons_self _ _)
      · exact Or.inr (List.mem_cons_of_mem _ h1)
    · rcases ih b c h with h1 | h1
      · exact Or.inl h1
      · exact Or.inr (List.mem_cons_of_mem _ h1)

theorem pickFold_min (obj : Objective) (l : List Cand) :
    ∀ b c : Cand, l.foldl (pickStep obj) (some b) = some c →
      metric obj c.2.2 ≤ metric obj b.2.2 ∧
      ∀ c2 ∈ l, metric obj c.2.2 ≤ metric obj c2.2.2 := by
  induction l with
  | nil =>
    intro b c h
    simp only [List.foldl_nil, Option.some.injEq] at h
    subst h
    exact ⟨Nat.le_refl _, by simp⟩
  | cons x rest ih =>
    intro b c h
    simp only [List.foldl_cons, pickStep] at h
    split at h
    case isTrue hbc =>
      obtain ⟨h1, h2⟩ := ih x c h
      have hxb := betterCand_le obj x b hbc
      refine ⟨Nat.le_trans h1 hxb, ?_⟩
      intro c2 hc2
      rcases List.mem_cons.mp hc2 with h3 | h3
      · exact h3 ▸ h1
      · exact h2 c2 h3
    case isFalse hbc =>
      obtain ⟨h1, h2⟩ := ih b c h
      have hbx := betterCand_ge obj x b (Bool.eq_false_iff.mpr hbc)
      refine ⟨h1, ?_⟩
      intro c2 hc2
      rcases List.mem_cons.mp hc2 with h3 | h3
      · exact h3 ▸ Nat.le_trans h1 hbx
      · exact h2 c2 h3

theorem pickBest_mem (obj : Objective) (l : List Cand) (c : Cand)
    (h : pickBest obj l = some c) : c ∈ l := by
  cases l with
  | nil => simp [pickBest] at h
  | cons x rest =>
    have h2 : rest.foldl (pickStep obj) (some x) = some c := h
    rcases pickFold_mem obj rest x c h2 with h3 | h3
    · exact h3 ▸ List.mem_cons_self _ _
    · exact List.mem_cons_of_mem _ h3

theorem pickBest_min (obj : Objective) (l : List Cand) (c : Cand)
    (h : pickBest obj l = some c) :
    ∀ c2 ∈ l, metric obj c.2.2 ≤ metric obj c2.2.2 := by
  cases l with
  | nil => simp [pickBest] at h
  | cons x rest =>
    have h2 : rest.foldl (pickStep obj) (some x) = some c := h
    obtain ⟨h1, hrest⟩ := pickFold_min obj rest x c h2
    intro c2 hc2
    rcases List.mem_cons.mp hc2 with h3 | h3
    · exact h3 ▸ h1
    · exact hrest c2 h3

theorem pickBest_isSome (obj : Objective) (l : List Cand) (hne : l ≠ []) :
    ∃ c, pickBest obj l = some c := by
  cases l with
  | nil => exact absurd rfl hne
  | cons x rest =>
    have h2 : pickBest obj (x :: rest) = rest.foldl (pickStep obj) (some x) := rfl
    cases h3 : rest.foldl (pickStep obj) (some x) with
    | none => exact absurd h3 (pickFold_ne_none obj rest x)
    | some c => exact ⟨c, h2.trans h3⟩

/-- Widening the budget keeps every candidate. -/
theorem candidates_mono (k w1 w2 : Nat) (basis : List BasisGate) (hw : w1 ≤ w2) :
    ∀ c ∈ candidates k (some w1) basis, c ∈ candidates k (some w2) basis := by
  intro c hc
  rcases List.mem_filterMap.mp hc with ⟨st, hst, hf⟩
  split at hf
  case isTrue hb =>
    have hb2 : budgetOK (ancillaNeed st k) (some w2) k = true := by
      simp only [budgetOK, decide_eq_true_eq] at hb ⊢
      omega
    exact List.mem_filterMap.mpr ⟨st, hst, by rw [if_pos hb2]; exact hf⟩
  case isFalse => simp at hf

/-- The no-ancilla strategy only emits X, CX and CCX gates. -/
theorem noAncillaAux_kinds (fuel : Nat) :
    ∀ (controls : List Nat) (target : Nat), ∀ g ∈ noAncillaAux fuel controls target,
      g.kind = GateKind.x ∨ g.kind = GateKind.cx ∨ g.kind = GateKind.ccx := by
  induction fuel with
  | zero =>
    intro controls target g hg
    match controls with
    | [] => simp only [noAncillaAux, List.mem_singleton] at hg; subst hg; simp [Gate.kind]
    | [c] => simp only [noAncillaAux, List.mem_singleton] at hg; subst hg; simp [Gate.kind]
    | [c1, c2] => simp only [noAncillaAux, List.mem_singleton] at hg; subst hg; simp [Gate.kind]
    | c1 :: c2 :: c3 :: rest => simp [noAncillaAux] at hg
  | succ fuel ih =>
    intro controls target g hg
    match controls with
    | [] => simp only [noAncillaAux, List.mem_singleton] at hg; subst hg; simp [Gate.kind]
    | [c] => simp only [noAncillaAux, List.mem_singleton] at hg; subst hg; simp [Gate.kind]
    | [c1, c2] => simp only [noAncillaAux, List.mem_singleton] at hg; subst hg; simp [Gate.kind]
    | c1 :: c2 :: c3 :: rest =>
      simp only [noAncillaAux, List.mem_append] at hg
      rcases hg with ((h1 | h2) | h3) | h4
      · exact ih _ target g h1
      · exact ih _ target g h2
      · exact ih _ target g h3
      · exact ih _ target g h4

theorem contains_of_mem {l : List BasisGate} {b : BasisGate} (h : b ∈ l) :
    l.contains b = true := by
  induction l with
  | nil => simp at h
  | cons y ys ih =>
    rcases List.mem_cons.mp h with h1 | h1
    · subst h1; simp [List.contains_cons]
    · simp only [List.contains_cons, Bool.or_eq_true]
      exact Or.inr (ih h1)

/-- Any X/CX/CCX gate expands successfully over a basis with `cx` and
single-qubit-universal support. -/
theorem expandToBasis_ok_xcc (g : Gate) (basis : List BasisGate)
    (hk : g.kind = GateKind.x ∨ g.kind = GateKind.cx ∨ g.kind = GateKind.ccx)
    (hu : BasisGate.u ∈ basis) (hcx : BasisGate.cx ∈ basis) :
    ∃ egs, expandToBasis g basis = Except.ok egs := by
  cases g with
  | X t => exact ⟨[Gate.X t], by simp [expandToBasis, Gate.kind, kindAllowed, hu]⟩
  | H t => simp [Gate.kind] at hk
  | T t => simp [Gate.kind] at hk
  | Tdg t => simp [Gate.kind] at hk
  | CX c t => exact ⟨[Gate.CX c t], by simp [expandToBasis, Gate.kind, kindAllowed, hcx]⟩
  | CCX c1 c2 t =>
    by_cases hcc : BasisGate.ccx ∈ basis
    · exact ⟨[Gate.CCX c1 c2 t], by simp [expandToBasis, Gate.kind, kindAllowed, hcc]⟩
    · exact ⟨ccxTemplate c1 c2 t,
        by simp [expandToBasis, Gate.kind, kindAllowed, hcc, hcx, hu]⟩

/-- A whole X/CX/CCX sequence expands successfully over such a basis. -/
theorem expandAll_ok_xcc (gs : List Gate) (basis : List BasisGate)
    (hk : ∀ g ∈ gs, g.kind = GateKind.x ∨ g.kind = GateKind.cx ∨ g.kind = GateKind.ccx)
    (hu : BasisGate.u ∈ basis) (hcx : BasisGate.cx ∈ basis) :
    ∃ egs, expandAll gs basis = Except.ok egs := by
  induction gs with
  | nil => exact ⟨[], rfl⟩
  | cons g gs ih =>
    obtain ⟨e, he⟩ := expandToBasis_ok_xcc g basis (hk g (List.mem_cons_self _ _)) hu hcx
    obtain ⟨rest, hrest⟩ := ih (fun g2 hg2 => hk g2 (List.mem_cons_of_mem _ hg2))
    exact ⟨e ++ rest, by simp [expandAll, he, hrest]⟩

/-- The no-ancilla candidate is present whenever the width floor holds and
the basis has `cx` and single-qubit-universal support. -/
theorem noAncilla_cand_mem (k : Nat) (w : Option Nat) (basis : List BasisGate)
    (hu : BasisGate.u ∈ basis) (hcx : BasisGate.cx ∈ basis)
    (hbud : budgetOK 0 w k = true) :
    ∃ egs, (Strategy.noAncillaS, 0, egs) ∈ candidates k w basis := by
  obtain ⟨egs, hegs⟩ := expandAll_ok_xcc (noAncilla (List.range k) k) basis
    (noAncillaAux_kinds (List.range k).length (List.range k) k) hu hcx
  refine ⟨egs, List.mem_filterMap.mpr ⟨Strategy.noAncillaS, by simp [strategyList], ?_⟩⟩
  have : candidateFor k basis Strategy.noAncillaS = some (Strategy.noAncillaS, 0, egs) := by
    simp [candidateFor, canonicalCircuit, runStrategy, hegs, ancillaNeed]
  simp only [ancillaNeed]
  rw [if_pos hbud, this]

theorem synthesize_ok (k w2 : Nat) (obj : Objective) (basis : List BasisGate)
    (hne : basis.isEmpty = false) (hwidth : ¬k + 1 > w2) (c : Cand)
    (hp : pickBest obj (candidates k (some w2) basis) = some c) :
    synthesize k (some w2) obj basis
      = Except.ok ⟨c.2.2, computeDepth c.2.2, fun kd => countKind c.2.2 kd⟩ := by
  simp [synthesize, hne, hwidth, hp]

/-- C6: under `minimize_depth`, for a fixed `k` and two feasible width bounds
`w1 ≤ w2` (and a basis with entangling and single-qubit-universal support),
the depth of the Synthesis Result at the wider bound never exceeds the depth
at the narrower bound — widening only adds candidates, and the engine picks
the cost-minimal one. -/
theorem C6_depth_monotone_in_width (k w1 w2 : Nat) (basis : List BasisGate)
    (hfeas : k + 1 ≤ w1) (hw : w1 ≤ w2)
    (hu : BasisGate.u ∈ basis) (hcx : BasisGate.cx ∈ basis) :
    ∃ r1 r2, synthesize k (some w1) Objective.depth basis = Except.ok r1 ∧
      synthesize k (some w2) Objective.depth basis = Except.ok r2 ∧
      r2.depth ≤ r1.depth := by
  have hne : basis.isEmpty = false := by
    cases basis with
    | nil => simp at hu
    | cons b bs => rfl
  have hbud1 : budgetOK 0 (some w1) k = true := by
    simp only [budgetOK, decide_eq_true_eq]
    omega
  obtain ⟨egs, hmem1⟩ := noAncilla_cand_mem k (some w1) basis hu hcx hbud1
  obtain ⟨c1, hp1⟩ := pickBest_isSome Objective.depth _ (List.ne_nil_of_mem hmem1)
  have hmem2 : (Strategy.noAncillaS, 0, egs) ∈ candidates k (some w2) basis :=
    candidates_mono k w1 w2 basis hw _ hmem1
  obtain ⟨c2, hp2⟩ := pickBest_isSome Objective.depth _ (List.ne_nil_of_mem hmem2)
  have hc1m : c1 ∈ candidates k (some w2) basis :=
    candidates_mono k w1 w2 basis hw c1 (pickBest_mem Objective.depth _ c1 hp1)
  have hmin : metric Objective.depth c2.2.2 ≤ metric Objective.depth c1.2.2 :=
    pickBest_min Objective.depth _ c2 hp2 c1 hc1m
  exact ⟨_, _, synthesize_ok k w1 Objective.depth basis hne (by omega) c1 hp1,
    synthesize_ok k w2 Objective.depth basis hne (by omega) c2 hp2,
    by simpa [metric] using hmin⟩

/-- Witness for C6 at `k = 2`, `w1 = 3`, `w2 = 6`, basis `{cx, u}`. -/
theorem C6_witness :
    ∃ r1 r2, synthesize 2 (some 3) Objective.depth [BasisGate.cx, BasisGate.u]
        = Except.ok r1 ∧
      synthesize 2 (some 6) Objective.depth [BasisGate.cx, BasisGate.u]
        = Except.ok r2 ∧
      r2.depth ≤ r1.depth :=
  C6_depth_monotone_in_width 2 3 6 [BasisGate.cx, BasisGate.u]
    (by decide) (by decide) (by decide) (by decide)

/-- C2: `plan` fails with `InfeasibleWidth` exactly when `k + 1 > max_width`,
carrying `required_minimum = k + 1`; in particular `plan(5, 3, _)` fails
with `InfeasibleWidth{required_minimum: 6}`, while `plan(14, 15, depth)`
succeeds with the no-ancilla recursive strategy forced at `a = 0`. -/
theorem C2_infeasible_width :
    (∀ (k w : Nat) (obj : Objective),
      (k + 1 > w → plan k (some w) obj = Except.error (SynthError.InfeasibleWidth (k + 1))) ∧
      (k + 1 ≤ w → ∃ p, plan k (some w) obj = Except.ok p)) ∧
    (∀ obj : Objective, plan 5 (some 3) obj = Except.error (SynthError.InfeasibleWidth 6)) ∧
    plan 14 (some 15) Objective.depth = Except.ok (noAncillaPlan 14) := by
  refine ⟨fun k w obj => ⟨fun h => by simp [plan, h], fun h => ?_⟩, fun obj => rfl, rfl⟩
  have hbud : budgetOK 0 (some w) k = true := by
    simp only [budgetOK, decide_eq_true_eq]
    omega
  have hmem : (Strategy.noAncillaS, 0, noAncilla (List.range k) k) ∈ planCandidates k (some w) := by
    refine List.mem_filterMap.mpr ⟨Strategy.noAncillaS, by simp [strategyList], ?_⟩
    simp only [ancillaNeed]
    rw [if_pos hbud]
    rfl
  obtain ⟨c, hp⟩ := pickBest_isSome obj _ (List.ne_nil_of_mem hmem)
  have hnot : ¬k + 1 > w := by omega
  exact ⟨planOf c.1 k, by simp [plan, hnot, hp]⟩

/-- Witness for C2: `k = 7` against width 4 is rejected with
`required_minimum = 8`; `k = 2` against width 4 plans successfully. -/
theorem C2_witness :
    plan 7 (some 4) Objective.depth = Except.error (SynthError.InfeasibleWidth 8) ∧
    ∃ p, plan 2 (some 4) Objective.cxCount = Except.ok p :=
  ⟨(C2_infeasible_width.1 7 4 Objective.depth).1 (by decide),
   (C2_infeasible_width.1 2 4 Objective.cxCount).2 (by decide)⟩

theorem noAncillaPlanAux_height (fuel : Nat) :
    ∀ k, 1 ≤ k → k ≤ fuel → planHeight (noAncillaPlanAux fuel k) ≤ Nat.clog 2 k := by
  induction fuel with
  | zero => intro k h1 h2; omega
  | succ fuel ih =>
    intro k h1 h2
    by_cases hk : k ≤ 2
    · simp [noAncillaPlanAux, hk, planHeight]
    · have hk3 : 3 ≤ k := by omega
      have hrec : Nat.clog 2 k = Nat.clog 2 ((k + 1) / 2) + 1 :=
        Nat.clog_of_two_le (by omega) (by omega)
      have hh1 : planHeight (noAncillaPlanAux fuel ((k + 1) / 2)) ≤ Nat.clog 2 ((k + 1) / 2) :=
        ih ((k + 1) / 2) (by omega) (by omega)
      have hh2 : planHeight (noAncillaPlanAux fuel (k - (k + 1) / 2)) ≤
          Nat.clog 2 (k - (k + 1) / 2) :=
        ih (k - (k + 1) / 2) (by omega) (by omega)
      have hmono : Nat.clog 2 (k - (k + 1) / 2) ≤ Nat.clog 2 ((k + 1) / 2) :=
        Nat.clog_mono_right 2 (by omega)
      simp only [noAncillaPlanAux, if_neg hk, planHeight]
      rw [hrec]
      omega

/-- C9: the recursive no-ancilla planning is a total function (it is defined
by structural recursion, hence terminates for every finite `k`), and the
recursion depth of the Decomposition Plan it produces — sub-plans over
halved control sets — is bounded by `⌈log₂ k⌉`. -/
theorem C9_recursion_depth_bound (k : Nat) (h : 1 ≤ k) :
    planHeight (noAncillaPlan k) ≤ Nat.clog 2 k :=
  noAncillaPlanAux_height k k h (Nat.le_refl k)

/-- Witness for C9 at `k = 5`. -/
theorem C9_witness : planHeight (noAncillaPlan 5) ≤ Nat.clog 2 5 :=
  C9_recursion_depth_bound 5 (by decide)

/-- C8: the engine is deterministic — two invocations of the planner or of
full synthesis with identical inputs produce identical Decomposition Plans
and Synthesis Results.  In this purely functional embedding (no ambient
state, no randomness, results depend on nothing but the four inputs) the
property is definitional. -/
theorem C8_determinism (k : Nat) (w : Option Nat) (obj : Objective)
    (basis : List BasisGate) :
    synthesize k w obj basis = synthesize k w obj basis ∧ plan k w obj = plan k w obj :=
  ⟨rfl, rfl⟩

/-- C5: for `k = 0` (any satisfiable width bound, any basis that can express
an `X`), synthesis succeeds with exactly one uncontrolled `X` on the target,
depth 1, gate-kind counts `{X: 1}` — and every strategy short-circuits to
that single `X` without decomposing. -/
theorem C5_zero_controls (w : Option Nat) (obj : Objective) (basis : List BasisGate)
    (hx : BasisGate.u ∈ basis ∨ BasisGate.x ∈ basis)
    (hw : w = none ∨ ∃ w2, w = some w2 ∧ 1 ≤ w2) :
    synthesize 0 w obj basis
      = Except.ok ⟨[Gate.X 0], 1, fun kd => if kd = GateKind.x then 1 else 0⟩ ∧
    ∀ (st : Strategy) (target : Nat) (ancillas : List Nat),
      runStrategy st [] target ancillas = some [Gate.X target] := by
  constructor
  · have hne : basis.isEmpty = false := by
      rcases hx with h | h <;> (cases basis with
        | nil => simp at h
        | cons b bs => rfl)
    have hxa : kindAllowed GateKind.x basis = true := by
      simp only [kindAllowed, Bool.or_eq_true]
      rcases hx with h | h
      · exact Or.inr (contains_of_mem h)
      · exact Or.inl (contains_of_mem h)
    have hexp : expandAll [Gate.X 0] basis = Except.ok [Gate.X 0] := by
      simp [expandAll, expandToBasis, Gate.kind, hxa]
    have hcf : ∀ st : Strategy, candidateFor 0 basis st = some (st, 0, [Gate.X 0]) := by
      intro st
      have h0 : canonicalCircuit st 0 = some [Gate.X 0] := by cases st <;> rfl
      have h1 : ancillaNeed st 0 = 0 := by cases st <;> rfl
      simp [candidateFor, h0, h1, hexp]
    have hbud : ∀ st : Strategy, budgetOK (ancillaNeed st 0) w 0 = true := by
      intro st
      have h1 : ancillaNeed st 0 = 0 := by cases st <;> rfl
      rw [h1]
      rcases hw with rfl | ⟨w2, rfl, hw2⟩
      · rfl
      · simp only [budgetOK, decide_eq_true_eq]
        omega
    have hcands : candidates 0 w basis
        = [(Strategy.vchainS, 0, [Gate.X 0]), (Strategy.noAncillaS, 0, [Gate.X 0]),
           (Strategy.logDepthS, 0, [Gate.X 0])] := by
      simp [candidates, strategyList, hbud, hcf]
    have hpick : pickBest obj (candidates 0 w basis)
        = some (Strategy.vchainS, 0, [Gate.X 0]) := by
      rw [hcands]
      simp [pickBest, pickStep, betterCand]
    have hdep : computeDepth [Gate.X 0] = 1 := rfl
    have hcnt : (fun kd => countKind [Gate.X 0] kd)
        = (fun kd => if kd = GateKind.x then 1 else 0) := by
      funext kd
      cases kd <;> rfl
    rcases hw with rfl | ⟨w2, rfl, hw2⟩
    · rw [show synthesize 0 none obj basis
          = (match pickBest obj (candidates 0 none basis) with
             | some c => Except.ok ⟨c.2.2, computeDepth c.2.2, fun kd => countKind c.2.2 kd⟩
             | none => Except.error SynthError.UnsupportedBasis) from by
        simp [synthesize, hne], hpick]
      simp [hdep, hcnt]
    · have hgt : ¬0 + 1 > w2 := by omega
      rw [show synthesize 0 (some w2) obj basis
          = (match pickBest obj (candidates 0 (some w2) basis) with
             | some c => Except.ok ⟨c.2.2, computeDepth c.2.2, fun kd => countKind c.2.2 kd⟩
             | none => Except.error SynthError.UnsupportedBasis) from by
        simp [synthesize, hne, hgt], hpick]
      simp [hdep, hcnt]
  · intro st target ancillas
    cases st <;> rfl

/-- Witness for C5 at width 4, objective `cx`-count, the notebook's
`{cx, u}` basis. -/
theorem C5_witness :
    synthesize 0 (some 4) Objective.cxCount [BasisGate.cx, BasisGate.u]
      = Except.ok ⟨[Gate.X 0], 1, fun kd => if kd = GateKind.x then 1 else 0⟩ ∧
    ∀ (st : Strategy) (target : Nat) (ancillas : List Nat),
      runStrategy st [] target ancillas = some [Gate.X target] :=
  C5_zero_controls (some 4) Objective.cxCount [BasisGate.cx, BasisGate.u]
    (Or.inl (by decide)) (Or.inr ⟨4, rfl, by decide⟩)

end MCXEngine
